import Mathlib

/-!
Verification development for the engineering-materials catalog application
(`app.py`). The catalog is a tree Manifest → Year → Branch → Subject →
Resource persisted as a JSON document; the code offers find-or-create
insertion, resource addition, flatten/search, deletion handlers, and a
collision-avoiding filename generator. Python's mutable dicts and lists are
modelled by pure structures with explicit state passing; mutating a node
reached through a reference returned by a lookup is modelled by updating the
first sibling with the looked-up name, which is exactly the node Python's
`find` loop returns.
-/

namespace App

/-- A resource record, as stored in a subject's `resources` list.
`url` is present for link resources, `path` for file resources; absent keys
of the Python dict are `none`. -/
structure Resource where
  title : String
  type : String
  url : Option String
  path : Option String
  deriving Repr, DecidableEq

/-- A subject node: `{"name": ..., "resources": [...]}`. -/
structure Subject where
  name : String
  resources : List Resource
  deriving Repr, DecidableEq

/-- A branch node: `{"name": ..., "subjects": [...]}`. -/
structure Branch where
  name : String
  subjects : List Subject
  deriving Repr, DecidableEq

/-- A year node: `{"name": ..., "branches": [...]}`. -/
structure Year where
  name : String
  branches : List Branch
  deriving Repr, DecidableEq

/-- The manifest root: `{"years": [...]}`. -/
structure Manifest where
  years : List Year
  deriving Repr, DecidableEq

/-- `find_or_create_year(manifest, year_name)`: scan `manifest["years"]` for
the first year with the given name and return it; otherwise append a fresh
empty year and return that. The returned manifest is the (possibly) mutated
one. -/
def find_or_create_year (manifest : Manifest) (year_name : String) :
    Manifest × Year :=
  match manifest.years.find? (fun y => y.name == year_name) with
  | some y => (manifest, y)
  | none =>
    let new : Year := { name := year_name, branches := [] }
    ({ years := manifest.years ++ [new] }, new)

/-- `find_or_create_branch(year_obj, branch_name)`, one level down. -/
def find_or_create_branch (year_obj : Year) (branch_name : String) :
    Year × Branch :=
  match year_obj.branches.find? (fun b => b.name == branch_name) with
  | some b => (year_obj, b)
  | none =>
    let new : Branch := { name := branch_name, subjects := [] }
    ({ year_obj with branches := year_obj.branches ++ [new] }, new)

/-- `find_or_create_subject(branch_obj, subject_name)`, one level down. -/
def find_or_create_subject (branch_obj : Branch) (subject_name : String) :
    Branch × Subject :=
  match branch_obj.subjects.find? (fun s => s.name == subject_name) with
  | some s => (branch_obj, s)
  | none =>
    let new : Subject := { name := subject_name, resources := [] }
    ({ branch_obj with subjects := branch_obj.subjects ++ [new] }, new)

/-- Replace the first list element satisfying `p` by its image under `f`;
this is how an in-place update through a reference obtained by a first-match
scan acts on the enclosing list. -/
def updateFirst (p : α → Bool) (f : α → α) : List α → List α
  | [] => []
  | x :: xs => if p x then f x :: xs else x :: updateFirst p f xs

/-- `subject_obj["resources"].append(resource)`, the in-place append of
`add_resource` as it acts on the subject node. -/
def add_to_subject (resource : Resource) (s : Subject) : Subject :=
  { s with resources := s.resources ++ [resource] }

/-- The effect of `add_resource` on the year's branch holding the target
subject: `find_or_create_subject` then the append, written back to the first
subject with the looked-up name (the one the call returns). -/
def add_to_branch (subject_name : String) (resource : Resource) (b : Branch) :
    Branch :=
  let b₁ := (find_or_create_subject b subject_name).1
  { b₁ with
    subjects := updateFirst (fun s => s.name == subject_name)
      (add_to_subject resource) b₁.subjects }

/-- The effect of `add_resource` on the year holding the target branch. -/
def add_to_year (branch_name subject_name : String) (resource : Resource)
    (y : Year) : Year :=
  let y₁ := (find_or_create_branch y branch_name).1
  { y₁ with
    branches := updateFirst (fun b => b.name == branch_name)
      (add_to_branch subject_name resource) y₁.branches }

/-- `add_resource(manifest, year_name, branch_name, subject_name, resource)`:
compose the three find-or-create calls, then append `resource` to the found
subject's `resources` list. Python mutates the objects returned by the
find-or-create calls in place; here the write-back updates the first
name-matching node at each level, which is the node those calls return. -/
def add_resource (manifest : Manifest) (year_name branch_name subject_name :
    String) (resource : Resource) : Manifest :=
  let m₁ := (find_or_create_year manifest year_name).1
  { years := updateFirst (fun y => y.name == year_name)
      (add_to_year branch_name subject_name resource) m₁.years }

/-- A record produced by `flatten_resources`: the resource fields plus the
denormalized ancestor names. -/
structure FlatRecord where
  year : String
  branch : String
  subject : String
  title : String
  type : String
  url : Option String
  path : Option String
  deriving Repr, DecidableEq

/-- `flatten_resources(manifest)`: nested loops over years, branches,
subjects and resources, appending one denormalized record per resource. -/
def flatten_resources (manifest : Manifest) : List FlatRecord :=
  manifest.years.flatMap (fun year =>
    year.branches.flatMap (fun branch =>
      branch.subjects.flatMap (fun subject =>
        subject.resources.map (fun res =>
          { year := year.name
            branch := branch.name
            subject := subject.name
            title := res.title
            type := res.type
            url := res.url
            path := res.path }))))

/-- Does `hay` start with `needle`? (Helper for substring containment.) -/
def startsWith : List Char → List Char → Bool
  | _, [] => true
  | [], _ :: _ => false
  | h :: hs, n :: ns => h == n && startsWith hs ns

/-- Python's `needle in hay` substring test on strings, over char lists. -/
def containsSub (hay needle : List Char) : Bool :=
  match hay with
  | [] => startsWith [] needle
  | _ :: hs => startsWith hay needle || containsSub hs needle

/-- `ql in s` for strings, where `ql` is already lowercased by the caller. -/
def strIn (needle hay : String) : Bool :=
  containsSub hay.data needle.data

/-- The search filter of the display section: with `ql = q.lower()`, keep the
flattened records `r` with `ql in r["title"].lower() or ql in
r["subject"].lower() or ql in r["branch"].lower() or ql in
r["year"].lower()`, in flatten order. -/
def searchResults (manifest : Manifest) (q : String) : List FlatRecord :=
  let ql := q.toLower
  (flatten_resources manifest).filter (fun r =>
    strIn ql r.title.toLower || strIn ql r.subject.toLower ||
    strIn ql r.branch.toLower || strIn ql r.year.toLower)

/-- Fixture: a one-year manifest used by the witnesses. -/
def mEx : Manifest := ⟨[⟨"1st Year", [⟨"CSE", [⟨"Maths", []⟩]⟩]⟩]⟩

/-- Fixture: the year node of `mEx`. -/
def yEx : Year := mEx.years.headD { name := "", branches := [] }

/-- Fixture: the branch node of `yEx`. -/
def bEx : Branch := yEx.branches.headD { name := "", subjects := [] }

/-- The query is a substring of `hay` (Python's `needle in hay`), stated
declaratively. -/
def SubstrIn (needle hay : String) : Prop :=
  ∃ l r, hay.data = l ++ needle.data ++ r

/-- A flattened record matches the query when the lowercased query is a
substring of the lowercased title, subject, branch or year field. -/
def RecordMatches (q : String) (r : FlatRecord) : Prop :=
  SubstrIn q.toLower r.title.toLower ∨ SubstrIn q.toLower r.subject.toLower ∨
  SubstrIn q.toLower r.branch.toLower ∨ SubstrIn q.toLower r.year.toLower

/-- Fixture: a link resource titled "Calc". -/
def resEx : Resource := ⟨"Calc", "link", some "http://c", none⟩

/-- Fixture: a manifest with a single link resource under
1st Year / CSE / Maths. -/
def mSearchEx : Manifest := ⟨[⟨"1st Year", [⟨"CSE", [⟨"Maths", [resEx]⟩]⟩]⟩]⟩

/-- `os.path.splitext` for a bare filename (no directory separator): split
before the last dot, unless every character preceding that dot is itself a
dot (leading dots do not start an extension). -/
def splitext (name : String) : String × String :=
  let cs := name.data
  match cs.reverse.findIdx? (· == '.') with
  | none => (name, "")
  | some j =>
    let i := cs.length - 1 - j
    if (cs.take i).all (· == '.') then (name, "")
    else (⟨cs.take i⟩, ⟨cs.drop i⟩)

/-- The `k`-th candidate tried by `unique_filename`: the requested name
itself first, then `base_1ext`, `base_2ext`, ... -/
def candAt (base ext : String) : Nat → String
  | 0 => base ++ ext
  | k + 1 => base ++ "_" ++ toString (k + 1) ++ ext

/-- The `while (folder / candidate).exists()` loop of `unique_filename`:
`counter` is the next suffix to try and `candidate` the name under test;
`none` means the given number of iterations did not reach a free name
(`uf_loop_isSome` shows `existing.length + 1` iterations always do). -/
def uf_loop (existing : List String) (base ext : String) :
    Nat → String → Nat → Option String
  | _, _, 0 => none
  | counter, candidate, fuel + 1 =>
    if existing.contains candidate then
      uf_loop existing base ext (counter + 1)
        (base ++ "_" ++ toString counter ++ ext) fuel
    else some candidate

/-- `unique_filename(folder, name)` where `existing` lists the folder's
current entries: split `name` into base and extension and append `_1`, `_2`,
... before the extension until the candidate is not an existing entry. -/
def unique_filename (existing : List String) (name : String) : String :=
  let base := (splitext name).1
  let ext := (splitext name).2
  (uf_loop existing base ext 1 (base ++ ext) (existing.length + 1)).getD
    (base ++ ext)

/-- `N` sequential `unique_filename` calls with the same requested name:
each returned name is stored into the folder (as the upload handler does)
before the next call, and no file is deleted in between. -/
def sequential_calls (existing : List String) (name : String) :
    Nat → List String
  | 0 => []
  | n + 1 =>
    let c := unique_filename existing name
    c :: sequential_calls (existing ++ [c]) name n

/-- The file vault: the set of paths currently stored on disk. -/
structure Vault where
  files : List String
  deriving Repr, DecidableEq

/-- `os.path.exists(p)` against the vault; the empty path (the `get`
default when a resource has no recorded path) never exists. -/
def path_exists (fs : Vault) (p : String) : Bool :=
  p != "" && fs.files.contains p

/-- The resource delete button handler: if the resource is a file resource
and its recorded path exists, remove the backing file (`os.remove`); then
remove the resource from the subject's list (Python `list.remove` drops the
first structurally equal element). -/
def delete_resource (fs : Vault) (subject : Subject) (res : Resource) :
    Vault × Subject :=
  let p := res.path.getD ""
  let fs' := if res.type == "file" && path_exists fs p then
    ⟨fs.files.erase p⟩ else fs
  (fs', { subject with resources := subject.resources.erase res })

/-- The year delete button handler: `manifest["years"].remove(year)` and
nothing else; no file-system call is made. -/
def delete_year (fs : Vault) (manifest : Manifest) (year : Year) :
    Vault × Manifest :=
  (fs, ⟨manifest.years.erase year⟩)

/-- Outcome of the add-resource form submit handler. `fileSaved` records
whether the file-specific save path (writing the upload into the vault)
ran. -/
inductive SubmitResult where
  | errorFields
  | errorUrl
  | ok (m : Manifest) (fileSaved : Bool)
  deriving Repr, DecidableEq

/-- The add-resource form submit handler. The form's selectbox offers the
types "link" and "upload_file"; the URL input is only shown (and `url` only
set) for "link". After the presence checks, the handler tests
`res_type == "file"` to decide between the upload-saving branch and the
link branch. -/
def handle_add_submit (manifest : Manifest) (existing : List String)
    (year_name branch_name subject_name title res_type url_input
      uploaded_name : String) : SubmitResult :=
  let url := if res_type == "link" then url_input else ""
  if year_name == "" || branch_name == "" || subject_name == "" ||
      title == "" then
    .errorFields
  else if res_type == "link" && url == "" then
    .errorUrl
  else if res_type == "file" then
    let safe_name := unique_filename existing uploaded_name
    .ok (add_resource manifest year_name.trim branch_name.trim
      subject_name.trim ⟨title, "file", none, some ("static/" ++ safe_name)⟩)
      true
  else
    .ok (add_resource manifest year_name.trim branch_name.trim
      subject_name.trim ⟨title, "link", some url, none⟩) false

/-- The flattened record of resource `r` filed under the given year, branch
and subject names. -/
def mkRec (yn bn sn : String) (r : Resource) : FlatRecord :=
  ⟨yn, bn, sn, r.title, r.type, r.url, r.path⟩

/-- The records `flatten_resources` produces for one subject, given the
ancestor names. -/
def flattenS (yn bn : String) (s : Subject) : List FlatRecord :=
  s.resources.map (fun res =>
    ⟨yn, bn, s.name, res.title, res.type, res.url, res.path⟩)

/-- The records `flatten_resources` produces for one branch. -/
def flattenB (yn : String) (b : Branch) : List FlatRecord :=
  b.subjects.flatMap (flattenS yn b.name)

/-- The records `flatten_resources` produces for one year. -/
def flattenY (y : Year) : List FlatRecord :=
  y.branches.flatMap (flattenB y.name)

/-- Number of subject nodes under a year. -/
def totalSubjectsY (y : Year) : Nat :=
  (y.branches.map (fun b => b.subjects.length)).sum

/-- Number of branch nodes in a manifest. -/
def totalBranches (m : Manifest) : Nat :=
  (m.years.map (fun y => y.branches.length)).sum

/-- Number of subject nodes in a manifest. -/
def totalSubjects (m : Manifest) : Nat :=
  (m.years.map totalSubjectsY).sum

/-- A JSON value as handled by `json.load` / `json.dump`. Numbers are kept
as their canonical source lexeme, which is all the byte-level round-trip
needs. -/
inductive Json where
  | null
  | bool (b : Bool)
  | num (raw : String)
  | str (s : String)
  | arr (elems : List Json)
  | obj (fields : List (String × Json))

/-- The characters that may occur in a JSON number lexeme. -/
def numChar (c : Char) : Bool :=
  c.isDigit || c == '-' || c == '+' || c == '.' || c == 'e' || c == 'E'

/-- JSON insignificant whitespace. -/
def wsChar (c : Char) : Bool :=
  c == '\n' || c == '\r' || c == ' ' || c == '\t'

/-- `json.dump`'s escaping of one string character (`ensure_ascii=False`):
quote, backslash and the named control characters get two-character escapes,
the remaining control characters get `\u00xx`, everything else is emitted
verbatim. -/
def escapeChar (c : Char) : List Char :=
  if c = '"' then ['\\', '"']
  else if c = '\\' then ['\\', '\\']
  else if c = '\n' then ['\\', 'n']
  else if c = '\r' then ['\\', 'r']
  else if c = '\t' then ['\\', 't']
  else if c = '\x08' then ['\\', 'b']
  else if c = '\x0c' then ['\\', 'f']
  else if c.toNat < 32 then
    ['\\', 'u', '0', '0', Nat.digitChar (c.toNat / 16),
      Nat.digitChar (c.toNat % 16)]
  else [c]

/-- A JSON string literal: quote, escaped characters, quote. -/
def quoteStr (s : String) : List Char :=
  ('"' :: s.data.flatMap escapeChar) ++ ['"']

/-- `json.dump(..., indent=2)` newline plus indentation at a nesting
level. -/
def nlInd (lvl : Nat) : List Char :=
  '\n' :: List.replicate (2 * lvl) ' '

mutual

/-- Serialize one JSON value at a nesting level, exactly as
`json.dump(value, f, indent=2, ensure_ascii=False)` lays it out. -/
def dumpVal : Nat → Json → List Char
  | _, .null => ['n', 'u', 'l', 'l']
  | _, .bool true => ['t', 'r', 'u', 'e']
  | _, .bool false => ['f', 'a', 'l', 's', 'e']
  | _, .num raw => raw.data
  | _, .str s => quoteStr s
  | _, .arr [] => ['[', ']']
  | lvl, .arr (x :: xs) =>
    ('[' :: nlInd (lvl + 1)) ++ dumpVal (lvl + 1) x ++
      dumpElemsTail (lvl + 1) xs ++ nlInd lvl ++ [']']
  | _, .obj [] => ['\x7b', '\x7d']
  | lvl, .obj (kv :: kvs) =>
    ('\x7b' :: nlInd (lvl + 1)) ++ dumpField (lvl + 1) kv ++
      dumpFieldsTail (lvl + 1) kvs ++ nlInd lvl ++ ['\x7d']

/-- Serialize one `"key": value` object entry. -/
def dumpField : Nat → String × Json → List Char
  | lvl, (k, v) => quoteStr k ++ (':' :: ' ' :: dumpVal lvl v)

/-- Serialize the remaining array elements, each preceded by the item
separator `,` and a fresh indented line. -/
def dumpElemsTail : Nat → List Json → List Char
  | _, [] => []
  | lvl, x :: xs =>
    (',' :: nlInd lvl) ++ dumpVal lvl x ++ dumpElemsTail lvl xs

/-- Serialize the remaining object entries. -/
def dumpFieldsTail : Nat → List (String × Json) → List Char
  | _, [] => []
  | lvl, kv :: kvs =>
    (',' :: nlInd lvl) ++ dumpField lvl kv ++ dumpFieldsTail lvl kvs

end

/-- Drop leading JSON whitespace. -/
def skipWs : List Char → List Char
  | [] => []
  | c :: cs => if wsChar c then skipWs cs else c :: cs

/-- Value of a hexadecimal digit character. -/
def hexVal (c : Char) : Nat :=
  if c.isDigit then c.toNat - '0'.toNat
  else if 'a' ≤ c && c ≤ 'f' then c.toNat - 'a'.toNat + 10
  else if 'A' ≤ c && c ≤ 'F' then c.toNat - 'A'.toNat + 10
  else 0

/-- The two-character escapes accepted after a backslash. -/
def escChar? (e : Char) : Option Char :=
  if e = 'n' then some '\n'
  else if e = 't' then some '\t'
  else if e = 'r' then some '\r'
  else if e = 'b' then some '\x08'
  else if e = 'f' then some '\x0c'
  else if e = '"' then some '"'
  else if e = '\\' then some '\\'
  else if e = '/' then some '/'
  else none

/-- Parse the body of a string literal up to and including the closing
quote, undoing `escapeChar`. -/
def parseStrChars : List Char → Option (List Char × List Char)
  | [] => none
  | '"' :: rest => some ([], rest)
  | '\\' :: 'u' :: h1 :: h2 :: h3 :: h4 :: rest =>
    match parseStrChars rest with
    | some (cs, r) =>
      some (Char.ofNat (hexVal h1 * 4096 + hexVal h2 * 256 +
        hexVal h3 * 16 + hexVal h4) :: cs, r)
    | none => none
  | '\\' :: e :: rest =>
    match escChar? e with
    | some c =>
      match parseStrChars rest with
      | some (cs, r) => some (c :: cs, r)
      | none => none
    | none => none
  | c :: rest =>
    match parseStrChars rest with
    | some (cs, r) => some (c :: cs, r)
    | none => none

mutual

/-- Recursive-descent parse of one JSON value (fuelled; `loads` supplies
one unit of fuel per input character, which suffices). -/
def parseVal : Nat → List Char → Option (Json × List Char)
  | 0, _ => none
  | fuel + 1, input =>
    match skipWs input with
    | 'n' :: 'u' :: 'l' :: 'l' :: rest => some (.null, rest)
    | 't' :: 'r' :: 'u' :: 'e' :: rest => some (.bool true, rest)
    | 'f' :: 'a' :: 'l' :: 's' :: 'e' :: rest => some (.bool false, rest)
    | '"' :: rest =>
      match parseStrChars rest with
      | some (cs, r) => some (.str ⟨cs⟩, r)
      | none => none
    | '[' :: rest =>
      match skipWs rest with
      | ']' :: r => some (.arr [], r)
      | other =>
        match parseVal fuel other with
        | some (v, r) =>
          match parseElems fuel r with
          | some (vs, r2) => some (.arr (v :: vs), r2)
          | none => none
        | none => none
    | '\x7b' :: rest =>
      match skipWs rest with
      | '\x7d' :: r => some (.obj [], r)
      | '"' :: r =>
        match parseStrChars r with
        | some (kcs, r1) =>
          match skipWs r1 with
          | ':' :: r2 =>
            match parseVal fuel r2 with
            | some (v, r3) =>
              match parseFields fuel r3 with
              | some (kvs, r4) => some (.obj ((⟨kcs⟩, v) :: kvs), r4)
              | none => none
            | none => none
          | _ => none
        | none => none
      | _ => none
    | c :: rest =>
      if numChar c then
        some (.num ⟨c :: rest.takeWhile numChar⟩, rest.dropWhile numChar)
      else none
    | [] => none

/-- Parse the remaining array elements after the first: a `,`-prefixed
element or the closing `]`. -/
def parseElems : Nat → List Char → Option (List Json × List Char)
  | 0, _ => none
  | fuel + 1, input =>
    match skipWs input with
    | ',' :: r =>
      match parseVal fuel r with
      | some (v, r1) =>
        match parseElems fuel r1 with
        | some (vs, r2) => some (v :: vs, r2)
        | none => none
      | none => none
    | ']' :: r => some ([], r)
    | _ => none

/-- Parse the remaining object entries after the first. -/
def parseFields : Nat → List Char → Option (List (String × Json) × List Char)
  | 0, _ => none
  | fuel + 1, input =>
    match skipWs input with
    | ',' :: r =>
      match skipWs r with
      | '"' :: r1 =>
        match parseStrChars r1 with
        | some (kcs, r2) =>
          match skipWs r2 with
          | ':' :: r3 =>
            match parseVal fuel r3 with
            | some (v, r4) =>
              match parseFields fuel r4 with
              | some (kvs, r5) => some ((⟨kcs⟩, v) :: kvs, r5)
              | none => none
            | none => none
          | _ => none
        | none => none
      | _ => none
    | '\x7d' :: r => some ([], r)
    | _ => none

end

mutual

/-- Well-formedness of a value for serialization: number lexemes are
non-empty and made of number characters (every value `json.load` can
produce satisfies this). -/
def wfJson : Json → Bool
  | .null => true
  | .bool _ => true
  | .num raw => !raw.data.isEmpty && raw.data.all numChar
  | .str _ => true
  | .arr xs => wfList xs
  | .obj kvs => wfFields kvs

/-- `wfJson` over an element list. -/
def wfList : List Json → Bool
  | [] => true
  | x :: xs => wfJson x && wfList xs

/-- `wfJson` over the values of an entry list. -/
def wfFields : List (String × Json) → Bool
  | [] => true
  | kv :: kvs => wfJson kv.2 && wfFields kvs

end

/-- `save_manifest`: the exact byte content `json.dump(manifest, f,
indent=2, ensure_ascii=False)` writes. -/
def dumps (j : Json) : String := ⟨dumpVal 0 j⟩

/-- `load_manifest`'s parse of a document (`json.load`), as a total
function: `none` is a raised `JSONDecodeError`. -/
def loads (doc : String) : Option Json :=
  match parseVal (doc.data.length + 1) doc.data with
  | some (v, rest) => if skipWs rest = [] then some v else none
  | none => none

/-- The JSON document of one resource dict (schema fields in insertion
order; the optional `url` / `path` key is present when the field is). -/
def resource_to_json (r : Resource) : Json :=
  .obj ([("title", .str r.title), ("type", .str r.type)] ++
    (match r.url with | some u => [("url", .str u)] | none => []) ++
    (match r.path with | some p => [("path", .str p)] | none => []))

/-- The JSON document of one subject dict. -/
def subject_to_json (s : Subject) : Json :=
  .obj [("name", .str s.name),
        ("resources", .arr (s.resources.map resource_to_json))]

/-- The JSON document of one branch dict. -/
def branch_to_json (b : Branch) : Json :=
  .obj [("name", .str b.name),
        ("subjects", .arr (b.subjects.map subject_to_json))]

/-- The JSON document of one year dict. -/
def year_to_json (y : Year) : Json :=
  .obj [("name", .str y.name),
        ("branches", .arr (y.branches.map branch_to_json))]

/-- The JSON document of a manifest. -/
def manifest_to_json (m : Manifest) : Json :=
  .obj [("years", .arr (m.years.map year_to_json))]

/-- The next input character (if any) cannot extend a number lexeme. -/
def headNotNum : List Char → Prop
  | [] => True
  | c :: _ => numChar c = false

/-- Fixture: a manifest document carrying a free-form `meta` object, as the
persisted resource dicts do. -/
def jMetaEx : Json :=
  .obj [("years", .arr [.obj [("name", .str "1st Year"),
                              ("branches", .arr [])]]),
        ("meta", .obj [("added", .str "2024-01-01 10:00:00")])]

/-! ### Find-or-create: counting lemmas (claim C1) -/

lemma cnt_le_one_of_nodup_names (ys : List Year) (n : String)
    (h : (ys.map Year.name).Nodup) :
    ys.countP (fun y => y.name == n) ≤ 1 := by
  have h1 := List.nodup_iff_count_le_one.mp h n
  have h2 : (ys.map Year.name).count n = ys.countP (fun y => y.name == n) := by
    show (ys.map Year.name).countP (· == n) = _
    rw [List.countP_map]
    rfl
  omega

lemma cnt_le_one_of_nodup_branch_names (bs : List Branch) (n : String)
    (h : (bs.map Branch.name).Nodup) :
    bs.countP (fun b => b.name == n) ≤ 1 := by
  have h1 := List.nodup_iff_count_le_one.mp h n
  have h2 : (bs.map Branch.name).count n = bs.countP (fun b => b.name == n) := by
    show (bs.map Branch.name).countP (· == n) = _
    rw [List.countP_map]
    rfl
  omega

lemma cnt_le_one_of_nodup_subject_names (ss : List Subject) (n : String)
    (h : (ss.map Subject.name).Nodup) :
    ss.countP (fun s => s.name == n) ≤ 1 := by
  have h1 := List.nodup_iff_count_le_one.mp h n
  have h2 : (ss.map Subject.name).count n = ss.countP (fun s => s.name == n) := by
    show (ss.map Subject.name).countP (· == n) = _
    rw [List.countP_map]
    rfl
  omega

lemma cnt_foc_year (m : Manifest) (n : String)
    (h : m.years.countP (fun y => y.name == n) ≤ 1) :
    ((find_or_create_year m n).1.years.countP (fun y => y.name == n)) = 1 := by
  rcases Nat.eq_zero_or_pos (m.years.countP (fun y => y.name == n)) with hz | hpos
  · have hnone : m.years.find? (fun y => y.name == n) = none := by
      rw [List.find?_eq_none]
      intro x hx
      exact List.countP_eq_zero.mp hz x hx
    simp [find_or_create_year, hnone, List.countP_append, hz]
  · obtain ⟨y, hy, hpy⟩ := List.countP_pos_iff.mp hpos
    have hs : (m.years.find? (fun y => y.name == n)).isSome :=
      List.find?_isSome.mpr ⟨y, hy, hpy⟩
    obtain ⟨y', hy'⟩ := Option.isSome_iff_exists.mp hs
    simp only [find_or_create_year, hy']
    omega

lemma cnt_foc_branch (y : Year) (n : String)
    (h : y.branches.countP (fun b => b.name == n) ≤ 1) :
    ((find_or_create_branch y n).1.branches.countP (fun b => b.name == n)) = 1 := by
  rcases Nat.eq_zero_or_pos (y.branches.countP (fun b => b.name == n)) with hz | hpos
  · have hnone : y.branches.find? (fun b => b.name == n) = none := by
      rw [List.find?_eq_none]
      intro x hx
      exact List.countP_eq_zero.mp hz x hx
    simp [find_or_create_branch, hnone, List.countP_append, hz]
  · obtain ⟨b, hb, hpb⟩ := List.countP_pos_iff.mp hpos
    have hs : (y.branches.find? (fun b => b.name == n)).isSome :=
      List.find?_isSome.mpr ⟨b, hb, hpb⟩
    obtain ⟨b', hb'⟩ := Option.isSome_iff_exists.mp hs
    simp only [find_or_create_branch, hb']
    omega

lemma cnt_foc_subject (b : Branch) (n : String)
    (h : b.subjects.countP (fun s => s.name == n) ≤ 1) :
    ((find_or_create_subject b n).1.subjects.countP (fun s => s.name == n)) = 1 := by
  rcases Nat.eq_zero_or_pos (b.subjects.countP (fun s => s.name == n)) with hz | hpos
  · have hnone : b.subjects.find? (fun s => s.name == n) = none := by
      rw [List.find?_eq_none]
      intro x hx
      exact List.countP_eq_zero.mp hz x hx
    simp [find_or_create_subject, hnone, List.countP_append, hz]
  · obtain ⟨s, hs', hps⟩ := List.countP_pos_iff.mp hpos
    have hs : (b.subjects.find? (fun s => s.name == n)).isSome :=
      List.find?_isSome.mpr ⟨s, hs', hps⟩
    obtain ⟨s', hsx⟩ := Option.isSome_iff_exists.mp hs
    simp only [find_or_create_subject, hsx]
    omega

lemma cnt_foc_year_iter (m : Manifest) (n : String)
    (h : m.years.countP (fun y => y.name == n) ≤ 1) :
    ∀ k, 1 ≤ k →
      (((fun mm => (find_or_create_year mm n).1)^[k] m).years.countP
        (fun y => y.name == n)) = 1 := by
  intro k hk
  induction k with
  | zero => omega
  | succ j ih =>
    rcases Nat.eq_zero_or_pos j with hj | hj
    · subst hj
      simpa using cnt_foc_year m n h
    · have h1 := ih hj
      rw [Function.iterate_succ_apply']
      exact cnt_foc_year _ n (Nat.le_of_eq h1)

lemma cnt_foc_branch_iter (y : Year) (n : String)
    (h : y.branches.countP (fun b => b.name == n) ≤ 1) :
    ∀ k, 1 ≤ k →
      (((fun yy => (find_or_create_branch yy n).1)^[k] y).branches.countP
        (fun b => b.name == n)) = 1 := by
  intro k hk
  induction k with
  | zero => omega
  | succ j ih =>
    rcases Nat.eq_zero_or_pos j with hj | hj
    · subst hj
      simpa using cnt_foc_branch y n h
    · have h1 := ih hj
      rw [Function.iterate_succ_apply']
      exact cnt_foc_branch _ n (Nat.le_of_eq h1)

lemma cnt_foc_subject_iter (b : Branch) (n : String)
    (h : b.subjects.countP (fun s => s.name == n) ≤ 1) :
    ∀ k, 1 ≤ k →
      (((fun bb => (find_or_create_subject bb n).1)^[k] b).subjects.countP
        (fun s => s.name == n)) = 1 := by
  intro k hk
  induction k with
  | zero => omega
  | succ j ih =>
    rcases Nat.eq_zero_or_pos j with hj | hj
    · subst hj
      simpa using cnt_foc_subject b n h
    · have h1 := ih hj
      rw [Function.iterate_succ_apply']
      exact cnt_foc_subject _ n (Nat.le_of_eq h1)

/-- Claim C1: for any number `k ≥ 1` of `find_or_create_year` /
`find_or_create_branch` / `find_or_create_subject` calls with the same name,
applied at a level whose sibling names are unique, the resulting level
contains exactly one node with that name; moreover a call finding no node
with the name appends a fresh empty node and returns it, and a call finding
one returns the found node and leaves the level unchanged. -/
theorem find_or_create_idempotent (m : Manifest) (y : Year) (b : Branch)
    (n : String)
    (hm : (m.years.map Year.name).Nodup)
    (hy : (y.branches.map Branch.name).Nodup)
    (hb : (b.subjects.map Subject.name).Nodup) :
    (∀ k, 1 ≤ k →
      (((fun mm => (find_or_create_year mm n).1)^[k] m).years.countP
        (fun x => x.name == n)) = 1)
  ∧ (m.years.find? (fun x => x.name == n) = none →
      find_or_create_year m n =
        ({ years := m.years ++ [{ name := n, branches := [] }] },
         { name := n, branches := [] }))
  ∧ (∀ x, m.years.find? (fun z => z.name == n) = some x →
      find_or_create_year m n = (m, x))
  ∧ (∀ k, 1 ≤ k →
      (((fun yy => (find_or_create_branch yy n).1)^[k] y).branches.countP
        (fun x => x.name == n)) = 1)
  ∧ (y.branches.find? (fun x => x.name == n) = none →
      find_or_create_branch y n =
        ({ y with branches := y.branches ++ [{ name := n, subjects := [] }] },
         { name := n, subjects := [] }))
  ∧ (∀ x, y.branches.find? (fun z => z.name == n) = some x →
      find_or_create_branch y n = (y, x))
  ∧ (∀ k, 1 ≤ k →
      (((fun bb => (find_or_create_subject bb n).1)^[k] b).subjects.countP
        (fun x => x.name == n)) = 1)
  ∧ (b.subjects.find? (fun x => x.name == n) = none →
      find_or_create_subject b n =
        ({ b with subjects := b.subjects ++ [{ name := n, resources := [] }] },
         { name := n, resources := [] }))
  ∧ (∀ x, b.subjects.find? (fun z => z.name == n) = some x →
      find_or_create_subject b n = (b, x)) := by
  refine ⟨cnt_foc_year_iter m n (cnt_le_one_of_nodup_names m.years n hm),
    fun hn => by simp [find_or_create_year, hn],
    fun x hx => by simp [find_or_create_year, hx],
    cnt_foc_branch_iter y n (cnt_le_one_of_nodup_branch_names y.branches n hy),
    fun hn => by simp [find_or_create_branch, hn],
    fun x hx => by simp [find_or_create_branch, hx],
    cnt_foc_subject_iter b n
      (cnt_le_one_of_nodup_subject_names b.subjects n hb),
    fun hn => by simp [find_or_create_subject, hn],
    fun x hx => by simp [find_or_create_subject, hx]⟩

/-- Witness for claim C1: two consecutive `find_or_create_year "2nd Year"`
calls on the concrete one-year manifest leave exactly one year of that
name. -/
theorem find_or_create_idempotent_witness :
    (((fun mm => (find_or_create_year mm "2nd Year").1)^[2] mEx).years.countP
      (fun x => x.name == "2nd Year")) = 1 :=
  (find_or_create_idempotent mEx yEx bEx "2nd Year" (by decide) (by decide)
    (by decide)).1 2 (by decide)

/-! ### Search equals flatten-then-filter (claim C2) -/

lemma startsWith_iff (hay needle : List Char) :
    startsWith hay needle = true ↔ ∃ t, hay = needle ++ t := by
  induction needle generalizing hay with
  | nil => simp [startsWith]
  | cons n ns ih =>
    cases hay with
    | nil => simp [startsWith]
    | cons h hs =>
      simp only [startsWith, Bool.and_eq_true, beq_iff_eq, ih hs]
      constructor
      · rintro ⟨rfl, t, rfl⟩
        exact ⟨t, rfl⟩
      · rintro ⟨t, ht⟩
        cases ht
        exact ⟨rfl, t, rfl⟩

lemma containsSub_iff (hay needle : List Char) :
    containsSub hay needle = true ↔ ∃ l r, hay = l ++ needle ++ r := by
  induction hay with
  | nil =>
    rw [containsSub, startsWith_iff]
    constructor
    · rintro ⟨t, ht⟩
      exact ⟨[], t, ht⟩
    · rintro ⟨l, r, h⟩
      cases l with
      | nil => exact ⟨r, h⟩
      | cons c cs => simp at h
  | cons h hs ih =>
    rw [containsSub, Bool.or_eq_true, startsWith_iff, ih]
    constructor
    · rintro (⟨t, ht⟩ | ⟨l, r, hr⟩)
      · exact ⟨[], t, ht⟩
      · exact ⟨h :: l, r, by simp [hr]⟩
    · rintro ⟨l, r, hr⟩
      cases l with
      | nil => exact Or.inl ⟨r, hr⟩
      | cons c cs =>
        simp only [List.cons_append, List.cons.injEq] at hr
        exact Or.inr ⟨cs, r, hr.2⟩

lemma strIn_iff (needle hay : String) :
    strIn needle hay = true ↔ SubstrIn needle hay :=
  containsSub_iff hay.data needle.data

/-- Claim C2: for a non-empty query, the search results are exactly the
flatten output filtered by the four-field case-insensitive substring match,
in flatten order, for every manifest. -/
theorem search_eq_flatten_filter (m : Manifest) (q : String) (hq : q ≠ "") :
    searchResults m q = (flatten_resources m).filter (fun r =>
      strIn q.toLower r.title.toLower || strIn q.toLower r.subject.toLower ||
      strIn q.toLower r.branch.toLower || strIn q.toLower r.year.toLower)
  ∧ ∀ r, r ∈ searchResults m q ↔ r ∈ flatten_resources m ∧ RecordMatches q r := by
  refine ⟨rfl, fun r => ?_⟩
  rw [searchResults, List.mem_filter]
  simp only [Bool.or_eq_true, strIn_iff]
  rw [RecordMatches, or_assoc, or_assoc]

/-- Witness for claim C2: searching the concrete manifest for "cse" filters
the flatten output by the substring predicate. -/
theorem search_eq_flatten_filter_witness :
    searchResults mSearchEx "cse" = (flatten_resources mSearchEx).filter
      (fun r =>
        strIn "cse".toLower r.title.toLower ||
        strIn "cse".toLower r.subject.toLower ||
        strIn "cse".toLower r.branch.toLower ||
        strIn "cse".toLower r.year.toLower) :=
  (search_eq_flatten_filter mSearchEx "cse" (by decide)).1

/-- Claim C3: adding the "Signals Notes" link resource under
("2nd Year", "ECE", "Signals") to the empty manifest produces exactly one
year, containing exactly one branch, containing exactly one subject,
containing exactly that one resource. -/
theorem add_resource_scenario :
    add_resource ⟨[]⟩ "2nd Year" "ECE" "Signals"
      ⟨"Signals Notes", "link", some "http://x", none⟩ =
    ⟨[⟨"2nd Year", [⟨"ECE", [⟨"Signals",
      [⟨"Signals Notes", "link", some "http://x", none⟩]⟩]⟩]⟩]⟩ := by
  rfl

/-! ### Deletion handlers (claims C6, C7) -/

/-- Claim C6: a resource-level delete removes the resource from its
subject's list; for a file resource whose recorded path exists the backing
file is removed from the vault, a missing backing file is skipped without
error, and a link resource triggers no file-system operation. -/
theorem delete_resource_correct (fs : Vault) (subject : Subject)
    (res : Resource) :
    ((delete_resource fs subject res).2 =
      { subject with resources := subject.resources.erase res })
  ∧ (∀ p, res.type = "file" → res.path = some p → path_exists fs p = true →
      (delete_resource fs subject res).1 = ⟨fs.files.erase p⟩)
  ∧ (res.type = "file" → path_exists fs (res.path.getD "") = false →
      (delete_resource fs subject res).1 = fs)
  ∧ (res.type = "link" → (delete_resource fs subject res).1 = fs) := by
  refine ⟨rfl, ?_, ?_, ?_⟩
  · intro p ht hp hex
    simp [delete_resource, ht, hp, hex]
  · intro ht hex
    simp [delete_resource, ht, hex]
  · intro ht
    simp [delete_resource, ht]

/-- Witness for claim C6: deleting a concrete file resource whose path is
stored removes exactly that path from the vault. -/
theorem delete_resource_correct_witness :
    (delete_resource ⟨["static/a.pdf", "static/b.pdf"]⟩ ⟨"Maths", []⟩
      ⟨"A", "file", none, some "static/a.pdf"⟩).1 =
    ⟨(["static/a.pdf", "static/b.pdf"] : List String).erase "static/a.pdf"⟩ :=
  (delete_resource_correct ⟨["static/a.pdf", "static/b.pdf"]⟩ ⟨"Maths", []⟩
    ⟨"A", "file", none, some "static/a.pdf"⟩).2.1 "static/a.pdf" rfl rfl
    (by decide)

lemma mem_flatten_year_names (l : List Year) (r : FlatRecord)
    (h : r ∈ flatten_resources ⟨l⟩) : ∃ y ∈ l, r.year = y.name := by
  simp only [flatten_resources, List.mem_flatMap, List.mem_map] at h
  obtain ⟨y, hy, b, hb, s, hs, res, hres, heq⟩ := h
  exact ⟨y, hy, by rw [← heq]⟩

/-- Claim C7: deleting a year removes it (and with it all nested branches,
subjects and resources) from the flatten output, while the vault is left
untouched: nested file resources are not removed from disk. When no other
year shares the deleted year's name, no record of that year name remains. -/
theorem delete_year_frame (fs : Vault) (m : Manifest) (y : Year)
    (pre post : List Year) (hsplit : m.years = pre ++ y :: post)
    (hpre : y ∉ pre) :
    (delete_year fs m y).1 = fs
  ∧ flatten_resources (delete_year fs m y).2 =
      flatten_resources ⟨pre⟩ ++ flatten_resources ⟨post⟩
  ∧ (y.name ∉ (pre ++ post).map Year.name →
      ∀ r ∈ flatten_resources (delete_year fs m y).2, r.year ≠ y.name) := by
  have herase : m.years.erase y = pre ++ post := by
    rw [hsplit, List.erase_append_right _ hpre, List.erase_cons_head]
  have happ : flatten_resources ⟨pre ++ post⟩ =
      flatten_resources ⟨pre⟩ ++ flatten_resources ⟨post⟩ := by
    simp [flatten_resources, List.flatMap_append]
  have hflat : flatten_resources (delete_year fs m y).2 =
      flatten_resources ⟨pre⟩ ++ flatten_resources ⟨post⟩ := by
    show flatten_resources ⟨m.years.erase y⟩ = _
    rw [herase, happ]
  refine ⟨rfl, hflat, ?_⟩
  intro hname r hr heq
  rw [hflat] at hr
  have hr' : r ∈ flatten_resources ⟨pre ++ post⟩ := by
    rw [happ]
    exact hr
  obtain ⟨y', hy', hy'name⟩ := mem_flatten_year_names (pre ++ post) r hr'
  exact hname (by rw [← heq, hy'name] at *; exact List.mem_map_of_mem _ hy')

/-- Witness for claim C7: deleting the single year of the concrete search
fixture leaves the vault unchanged. -/
theorem delete_year_frame_witness :
    (delete_year ⟨["static/a.pdf"]⟩ mSearchEx
      ⟨"1st Year", [⟨"CSE", [⟨"Maths", [resEx]⟩]⟩]⟩).1 = ⟨["static/a.pdf"]⟩ :=
  (delete_year_frame ⟨["static/a.pdf"]⟩ mSearchEx
    ⟨"1st Year", [⟨"CSE", [⟨"Maths", [resEx]⟩]⟩]⟩ [] [] rfl (by decide)).1

/-! ### The add-resource form's file/upload_file tag mismatch (claim C4) -/

/-- Claim C4: the selectable resource types are "link" and "upload_file",
but the save branch tests for "file"; hence no form submission ever runs
the file-saving path, and an "upload_file" submission passing the field
checks produces a link-typed resource (with the never-assigned empty URL)
instead of storing the upload. -/
theorem submit_never_saves_file (m : Manifest) (existing : List String)
    (yn bn sn title url up : String) (rt : String)
    (hrt : rt = "link" ∨ rt = "upload_file") :
    (∀ m', handle_add_submit m existing yn bn sn title rt url up ≠
      .ok m' true)
  ∧ (rt = "upload_file" → yn ≠ "" → bn ≠ "" → sn ≠ "" → title ≠ "" →
      handle_add_submit m existing yn bn sn title rt url up =
        .ok (add_resource m yn.trim bn.trim sn.trim
          ⟨title, "link", some "", none⟩) false) := by
  constructor
  · intro m' h
    rw [handle_add_submit] at h
    rcases hrt with rfl | rfl <;>
      simp only [beq_self_eq_true, if_pos, if_true] at h <;>
      split_ifs at h <;> simp_all
  · rintro rfl h1 h2 h3 h4
    have g1 : (yn == "" || bn == "" || sn == "" || title == "") = false := by
      simp [h1, h2, h3, h4]
    have g2 : (("upload_file" : String) == "link") = false := by decide
    have g3 : (("upload_file" : String) == "file") = false := by decide
    simp [handle_add_submit, g1, g2, g3]

/-- Witness for claim C4: a concrete complete "upload_file" submission
yields a link resource with an empty URL and does not run the file path. -/
theorem submit_never_saves_file_witness :
    handle_add_submit mEx [] "1st Year" "CSE" "Maths" "Notes" "upload_file"
      "http://ignored" "f.pdf" =
    .ok (add_resource mEx "1st Year".trim "CSE".trim "Maths".trim
      ⟨"Notes", "link", some "", none⟩) false :=
  (submit_never_saves_file mEx [] "1st Year" "CSE" "Maths" "Notes"
    "http://ignored" "f.pdf" "upload_file" (Or.inr rfl)).2 rfl (by decide)
    (by decide) (by decide) (by decide)

/-! ### unique_filename: freshness and termination (claims C5, C10) -/

lemma digitChar_inj :
    ∀ a, a < 10 → ∀ b, b < 10 → Nat.digitChar a = Nat.digitChar b → a = b := by
  decide

lemma toDigitsCore_eq_digits :
    ∀ n : Nat, 1 ≤ n → ∀ (fuel : Nat) (ds : List Char), n < fuel →
      Nat.toDigitsCore 10 fuel n ds =
        ((Nat.digits 10 n).map Nat.digitChar).reverse ++ ds := by
  intro n
  induction n using Nat.strong_induction_on with
  | _ n ih =>
    intro hn fuel ds hfuel
    cases fuel with
    | zero => omega
    | succ f =>
      rw [Nat.toDigitsCore]
      by_cases h10 : n / 10 = 0
      · simp only [h10, if_pos]
        rw [Nat.digits_def' (by norm_num) (by omega), h10]
        simp
      · simp only [h10, if_neg, if_false]
        have hlt : n / 10 < n := Nat.div_lt_self (by omega) (by norm_num)
        rw [Nat.digits_def' (show (1:Nat) < 10 by norm_num)
          (show 0 < n by omega)]
        rw [ih (n / 10) hlt (by omega) f (Nat.digitChar (n % 10) :: ds)
          (by omega)]
        simp

lemma repr_eq_digits (n : Nat) (hn : 1 ≤ n) :
    Nat.repr n = (((Nat.digits 10 n).map Nat.digitChar).reverse).asString := by
  rw [Nat.repr, Nat.toDigits,
    toDigitsCore_eq_digits n hn (n + 1) [] (by omega)]
  simp

lemma map_digitChar_inj :
    ∀ l₁ l₂ : List Nat, (∀ x ∈ l₁, x < 10) → (∀ x ∈ l₂, x < 10) →
      l₁.map Nat.digitChar = l₂.map Nat.digitChar → l₁ = l₂ := by
  intro l₁
  induction l₁ with
  | nil =>
    intro l₂ _ _ h
    cases l₂ with
    | nil => rfl
    | cons b bs => simp at h
  | cons a as ih =>
    intro l₂ h₁ h₂ h
    cases l₂ with
    | nil => simp at h
    | cons b bs =>
      simp only [List.map_cons, List.cons.injEq] at h
      have ha : a = b := digitChar_inj a (h₁ a (by simp)) b (h₂ b (by simp)) h.1
      have hs : as = bs := ih bs (fun x hx => h₁ x (by simp [hx]))
        (fun x hx => h₂ x (by simp [hx])) h.2
      rw [ha, hs]

lemma digits_map_ne_zero_char (n : Nat) (hn : 0 < n) :
    (Nat.digits 10 n).map Nat.digitChar ≠ ['0'] := by
  intro h
  have hdig : Nat.digits 10 n = [0] :=
    map_digitChar_inj (Nat.digits 10 n) [0]
      (fun x hx => Nat.digits_lt_base (by norm_num) hx)
      (by intro x hx; simp at hx; omega)
      (h.trans (by decide))
  have hofd := Nat.ofDigits_digits 10 n
  rw [hdig] at hofd
  simp [Nat.ofDigits] at hofd
  omega

lemma natRepr_injective : Function.Injective Nat.repr := by
  intro m n h
  rcases Nat.eq_zero_or_pos m with rfl | hm <;>
    rcases Nat.eq_zero_or_pos n with rfl | hn
  · rfl
  · exfalso
    rw [repr_eq_digits n hn] at h
    have hd := congrArg String.data h
    have h0 : (Nat.repr 0).data = ['0'] := by decide
    rw [h0] at hd
    simp only [List.asString] at hd
    have hmap : (Nat.digits 10 n).map Nat.digitChar = ['0'] := by
      rw [← List.reverse_inj]
      simpa using hd.symm
    exact digits_map_ne_zero_char n hn hmap
  · exfalso
    rw [repr_eq_digits m hm] at h
    have hd := congrArg String.data h.symm
    have h0 : (Nat.repr 0).data = ['0'] := by decide
    rw [h0] at hd
    simp only [List.asString] at hd
    have hmap : (Nat.digits 10 m).map Nat.digitChar = ['0'] := by
      rw [← List.reverse_inj]
      simpa using hd.symm
    exact digits_map_ne_zero_char m hm hmap
  · rw [repr_eq_digits m hm, repr_eq_digits n hn] at h
    have hd := congrArg String.data h
    simp only [List.asString, List.reverse_inj] at hd
    have hdig := map_digitChar_inj (Nat.digits 10 m) (Nat.digits 10 n)
      (fun x hx => Nat.digits_lt_base (by norm_num) hx)
      (fun x hx => Nat.digits_lt_base (by norm_num) hx) hd
    rw [← Nat.ofDigits_digits 10 m, ← Nat.ofDigits_digits 10 n, hdig]

lemma natRepr_length_pos (n : Nat) : 1 ≤ (Nat.repr n).length := by
  rcases Nat.eq_zero_or_pos n with rfl | hn
  · decide
  · rw [repr_eq_digits n hn]
    show 1 ≤ (((Nat.digits 10 n).map Nat.digitChar).reverse).length
    have : Nat.digits 10 n ≠ [] := Nat.digits_ne_nil_iff_ne_zero.mpr (by omega)
    simp only [List.length_reverse, List.length_map]
    cases hdl : Nat.digits 10 n with
    | nil => exact absurd hdl this
    | cons d ds => simp

lemma candAt_injective (base ext : String) :
    Function.Injective (candAt base ext) := by
  have hlen : ∀ k : Nat, (candAt base ext (k + 1)).length =
      base.length + 1 + (Nat.repr (k + 1)).length + ext.length := by
    intro k
    show (base ++ "_" ++ toString (k + 1) ++ ext).length = _
    simp [String.length_append]
    rfl
  intro a b h
  cases a with
  | zero =>
    cases b with
    | zero => rfl
    | succ j =>
      exfalso
      have h0 : (candAt base ext 0).length = base.length + ext.length := by
        show (base ++ ext).length = _
        simp [String.length_append]
      have hj := hlen j
      have hrep := natRepr_length_pos (j + 1)
      rw [h] at h0
      omega
  | succ k =>
    cases b with
    | zero =>
      exfalso
      have h0 : (candAt base ext 0).length = base.length + ext.length := by
        show (base ++ ext).length = _
        simp [String.length_append]
      have hk := hlen k
      have hrep := natRepr_length_pos (k + 1)
      rw [h] at hk
      omega
    | succ j =>
      have hdata := congrArg String.data h
      have hshape : ∀ i : Nat, (candAt base ext (i + 1)).data =
          base.data ++ ('_' :: (Nat.repr (i + 1)).data) ++ ext.data := by
        intro i
        show (base ++ "_" ++ toString (i + 1) ++ ext).data = _
        simp [String.data_append]
        rfl
      rw [hshape k, hshape j] at hdata
      have h1 := List.append_cancel_right hdata
      have h2 := List.append_cancel_left h1
      have h3 : (Nat.repr (k + 1)).data = (Nat.repr (j + 1)).data := by
        simpa using h2
      have h4 : Nat.repr (k + 1) = Nat.repr (j + 1) := String.ext h3
      have := natRepr_injective h4
      omega

lemma contains_iff_mem (l : List String) (a : String) :
    l.contains a = true ↔ a ∈ l := by
  simp [List.contains_iff_exists_mem_beq]

lemma uf_loop_none (existing : List String) (base ext : String) :
    ∀ fuel k,
      uf_loop existing base ext (k + 1) (candAt base ext k) fuel = none →
      ∀ i < fuel, candAt base ext (k + i) ∈ existing := by
  intro fuel
  induction fuel with
  | zero => intro k _ i hi; omega
  | succ f ih =>
    intro k h i hi
    rw [uf_loop] at h
    by_cases hc : existing.contains (candAt base ext k) = true
    · rw [if_pos hc] at h
      have harg : base ++ "_" ++ toString (k + 1) ++ ext =
          candAt base ext (k + 1) := rfl
      rw [harg] at h
      cases i with
      | zero => exact (contains_iff_mem existing _).mp hc
      | succ j =>
        have := ih (k + 1) h j (by omega)
        have hidx : k + 1 + j = k + (j + 1) := by omega
        rwa [hidx] at this
    · rw [if_neg hc] at h
      simp at h

lemma uf_loop_some (existing : List String) (base ext : String) :
    ∀ fuel k c,
      uf_loop existing base ext (k + 1) (candAt base ext k) fuel = some c →
      c ∉ existing ∧ ∃ i, c = candAt base ext (k + i) := by
  intro fuel
  induction fuel with
  | zero => intro k c h; simp [uf_loop] at h
  | succ f ih =>
    intro k c h
    rw [uf_loop] at h
    by_cases hc : existing.contains (candAt base ext k) = true
    · rw [if_pos hc] at h
      have harg : base ++ "_" ++ toString (k + 1) ++ ext =
          candAt base ext (k + 1) := rfl
      rw [harg] at h
      obtain ⟨hnot, i, hcand⟩ := ih (k + 1) c h
      refine ⟨hnot, i + 1, ?_⟩
      have hidx : k + 1 + i = k + (i + 1) := by omega
      rwa [hidx] at hcand
    · rw [if_neg hc] at h
      simp at h
      refine ⟨fun hmem => hc ((contains_iff_mem existing _).mpr ?_), 0, h.symm⟩
      rwa [h]

lemma uf_loop_reaches_free (existing : List String) (base ext : String) :
    ∃ c, uf_loop existing base ext 1 (candAt base ext 0)
      (existing.length + 1) = some c ∧ c ∉ existing := by
  cases heq : uf_loop existing base ext 1 (candAt base ext 0)
      (existing.length + 1) with
  | some c => exact ⟨c, rfl, (uf_loop_some existing base ext _ 0 c heq).1⟩
  | none =>
    exfalso
    have hall := uf_loop_none existing base ext (existing.length + 1) 0 heq
    have hsub : ((List.range (existing.length + 1)).map (candAt base ext)) ⊆
        existing := by
      intro x hx
      simp only [List.mem_map, List.mem_range] at hx
      obtain ⟨i, hi, rfl⟩ := hx
      simpa using hall i hi
    have hnodup : ((List.range (existing.length + 1)).map
        (candAt base ext)).Nodup :=
      (List.nodup_range _).map (candAt_injective base ext)
    have hle := (List.subperm_of_subset hnodup hsub).length_le
    simp at hle

lemma unique_filename_eq (existing : List String) (name : String) :
    ∃ c, unique_filename existing name = c ∧ c ∉ existing ∧
      ∃ i, c = candAt (splitext name).1 (splitext name).2 i := by
  obtain ⟨c, hc, hnot⟩ :=
    uf_loop_reaches_free existing (splitext name).1 (splitext name).2
  refine ⟨c, ?_, hnot,
    ((uf_loop_some existing (splitext name).1 (splitext name).2 _ 0 c hc).2).imp
      (fun i h => by simpa using h)⟩
  rw [unique_filename]
  have h0 : (splitext name).1 ++ (splitext name).2 =
      candAt (splitext name).1 (splitext name).2 0 := rfl
  simp only [h0, hc, Option.getD_some]

lemma sequential_calls_fresh (name : String) :
    ∀ (N : Nat) (existing : List String),
      (∀ c ∈ sequential_calls existing name N, c ∉ existing) ∧
      (sequential_calls existing name N).Nodup ∧
      (sequential_calls existing name N).length = N := by
  intro N
  induction N with
  | zero => intro existing; simp [sequential_calls]
  | succ n ih =>
    intro existing
    obtain ⟨c, hc, hnot, -⟩ := unique_filename_eq existing name
    obtain ⟨ihfresh, ihnodup, ihlen⟩ := ih (existing ++ [c])
    rw [sequential_calls, hc]
    refine ⟨?_, ?_, by simpa using ihlen⟩
    · intro x hx
      rcases List.mem_cons.mp hx with rfl | hx'
      · exact hnot
      · intro hmem
        exact ihfresh x hx' (by simp [hmem])
    · rw [List.nodup_cons]
      refine ⟨fun hmem => ihfresh c hmem (by simp), ihnodup⟩

/-- Claim C5: `unique_filename` never returns a name already present in the
folder, the returned name is the requested name or the base extended with a
`_k` suffix before the extension, and `N` sequential calls with the same
requested name (each storing its result, with no deletions) return `N`
distinct names. -/
theorem unique_filename_correct (existing : List String) (name : String)
    (N : Nat) :
    (unique_filename existing name ∉ existing)
  ∧ (∃ i, unique_filename existing name =
      candAt (splitext name).1 (splitext name).2 i)
  ∧ (sequential_calls existing name N).length = N
  ∧ (sequential_calls existing name N).Nodup := by
  obtain ⟨c, hc, hnot, hcand⟩ := unique_filename_eq existing name
  obtain ⟨-, hnodup, hlen⟩ := sequential_calls_fresh name N existing
  exact ⟨hc ▸ hnot, hc ▸ hcand, hlen, hnodup⟩

/-- Claim C10: the `unique_filename` loop terminates on every finite folder
listing: the successive candidates are pairwise distinct, so within
`existing.length + 1` iterations the loop reaches a candidate that is not an
existing entry. -/
theorem unique_filename_terminates (existing : List String)
    (base ext : String) :
    Function.Injective (candAt base ext)
  ∧ ∃ c, uf_loop existing base ext 1 (candAt base ext 0)
      (existing.length + 1) = some c ∧ c ∉ existing :=
  ⟨candAt_injective base ext, uf_loop_reaches_free existing base ext⟩

/-! ### add_resource frame property (claim C9) -/

lemma flatten_eq (m : Manifest) :
    flatten_resources m = m.years.flatMap flattenY := rfl

lemma updateFirst_length (p : α → Bool) (f : α → α) (l : List α) :
    (updateFirst p f l).length = l.length := by
  induction l with
  | nil => rfl
  | cons x xs ih =>
    rw [updateFirst]
    split <;> simp [ih]

lemma updateFirst_append_first (p : α → Bool) (f : α → α) (pre : List α)
    (x : α) (post : List α) (hpre : ∀ z ∈ pre, p z = false)
    (hx : p x = true) :
    updateFirst p f (pre ++ x :: post) = pre ++ f x :: post := by
  induction pre with
  | nil => simp [updateFirst, hx]
  | cons z zs ih =>
    have hz : p z = false := hpre z (by simp)
    simp only [List.cons_append, updateFirst, hz]
    simp only [Bool.false_eq_true, if_false, List.cons.injEq, true_and]
    exact ih (fun w hw => hpre w (by simp [hw]))

lemma find?_some_split (p : α → Bool) (l : List α) (x : α)
    (h : l.find? p = some x) :
    ∃ pre post, l = pre ++ x :: post ∧ ∀ z ∈ pre, p z = false := by
  induction l with
  | nil => simp at h
  | cons a as ih =>
    by_cases ha : p a = true
    · rw [List.find?_cons_of_pos as ha] at h
      obtain rfl : a = x := by simpa using h
      exact ⟨[], as, rfl, by simp⟩
    · rw [List.find?_cons_of_neg as (by simpa using ha)] at h
      obtain ⟨pre, post, rfl, hpre⟩ := ih h
      refine ⟨a :: pre, post, rfl, ?_⟩
      intro z hz
      rcases List.mem_cons.mp hz with rfl | hz'
      · simpa using ha
      · exact hpre z hz'

lemma flattenS_add (yn bn : String) (r : Resource) (s : Subject) :
    flattenS yn bn (add_to_subject r s) =
      flattenS yn bn s ++ [mkRec yn bn s.name r] := by
  simp [flattenS, add_to_subject, mkRec]

lemma flattenB_add (yn sn : String) (r : Resource) (b : Branch) :
    ∃ pre post, flattenB yn b = pre ++ post ∧
      flattenB yn (add_to_branch sn r b) =
        pre ++ mkRec yn b.name sn r :: post ∧
      (add_to_branch sn r b).name = b.name ∧
      (add_to_branch sn r b).subjects.length ≤ b.subjects.length + 1 := by
  cases hf : b.subjects.find? (fun s => s.name == sn) with
  | some s₀ =>
    obtain ⟨pre, post, hsplit, hpre⟩ := find?_some_split _ _ _ hf
    have hs₀ : s₀.name = sn := by simpa using List.find?_some hf
    have hb₁ : (find_or_create_subject b sn).1 = b := by
      simp [find_or_create_subject, hf]
    have hupd : add_to_branch sn r b =
        { b with subjects := pre ++ add_to_subject r s₀ :: post } := by
      rw [add_to_branch, hb₁]
      rw [show b.subjects = pre ++ s₀ :: post from hsplit]
      rw [updateFirst_append_first _ _ pre s₀ post hpre (by simp [hs₀])]
    refine ⟨pre.flatMap (flattenS yn b.name) ++ flattenS yn b.name s₀,
      post.flatMap (flattenS yn b.name), ?_, ?_, by rw [hupd], ?_⟩
    · rw [flattenB, hsplit]
      simp
    · rw [hupd]
      show (pre ++ add_to_subject r s₀ :: post).flatMap
        (flattenS yn b.name) = _
      rw [List.flatMap_append]
      simp [flattenS_add, hs₀]
    · rw [hupd]
      have := congrArg List.length hsplit
      simp at this ⊢
      omega
  | none =>
    have hb₁ : (find_or_create_subject b sn).1 =
        { b with subjects := b.subjects ++ [⟨sn, []⟩] } := by
      simp [find_or_create_subject, hf]
    have hall : ∀ z ∈ b.subjects, (z.name == sn) = false := by
      intro z hz
      simpa using List.find?_eq_none.mp hf z hz
    have hupd : add_to_branch sn r b =
        { b with subjects := b.subjects ++ [⟨sn, [r]⟩] } := by
      rw [add_to_branch, hb₁]
      show { b with subjects := updateFirst _ _ (b.subjects ++ (⟨sn, []⟩ : Subject) :: []) }
        = _
      rw [updateFirst_append_first _ _ b.subjects ⟨sn, []⟩ [] hall (by simp)]
      rfl
    refine ⟨flattenB yn b, [], by simp, ?_, by rw [hupd], by rw [hupd]; simp⟩
    rw [hupd]
    show (b.subjects ++ (⟨sn, [r]⟩ : Subject) :: []).flatMap (flattenS yn b.name) = _
    rw [List.flatMap_append]
    simp [flattenB, flattenS, mkRec]

lemma flattenY_add (bn sn : String) (r : Resource) (y : Year) :
    ∃ pre post, flattenY y = pre ++ post ∧
      flattenY (add_to_year bn sn r y) =
        pre ++ mkRec y.name bn sn r :: post ∧
      (add_to_year bn sn r y).name = y.name ∧
      (add_to_year bn sn r y).branches.length ≤ y.branches.length + 1 ∧
      totalSubjectsY (add_to_year bn sn r y) ≤ totalSubjectsY y + 1 := by
  cases hf : y.branches.find? (fun b => b.name == bn) with
  | some b₀ =>
    obtain ⟨pre, post, hsplit, hpre⟩ := find?_some_split _ _ _ hf
    have hb₀ : b₀.name = bn := by simpa using List.find?_some hf
    have hy₁ : (find_or_create_branch y bn).1 = y := by
      simp [find_or_create_branch, hf]
    have hupd : add_to_year bn sn r y =
        { y with branches := pre ++ add_to_branch sn r b₀ :: post } := by
      rw [add_to_year, hy₁]
      rw [show y.branches = pre ++ b₀ :: post from hsplit]
      rw [updateFirst_append_first _ _ pre b₀ post hpre (by simp [hb₀])]
    obtain ⟨p₂, q₂, hfl, hfl', hname, hlen⟩ := flattenB_add y.name sn r b₀
    refine ⟨pre.flatMap (flattenB y.name) ++ p₂,
      q₂ ++ post.flatMap (flattenB y.name), ?_, ?_, by rw [hupd], ?_, ?_⟩
    · rw [flattenY, hsplit]
      simp [hfl]
    · rw [hupd]
      show (pre ++ add_to_branch sn r b₀ :: post).flatMap (flattenB y.name) = _
      rw [List.flatMap_append]
      simp [hfl', hb₀]
    · rw [hupd]
      have := congrArg List.length hsplit
      simp at this ⊢
      omega
    · rw [hupd]
      show ((pre ++ add_to_branch sn r b₀ :: post).map
        (fun b => b.subjects.length)).sum ≤ _
      rw [show totalSubjectsY y = ((pre ++ b₀ :: post).map
        (fun b => b.subjects.length)).sum by rw [totalSubjectsY, hsplit]]
      simp only [List.map_append, List.map_cons, List.sum_append,
        List.sum_cons]
      omega
  | none =>
    have hy₁ : (find_or_create_branch y bn).1 =
        { y with branches := y.branches ++ [⟨bn, []⟩] } := by
      simp [find_or_create_branch, hf]
    have hall : ∀ z ∈ y.branches, (z.name == bn) = false := by
      intro z hz
      simpa using List.find?_eq_none.mp hf z hz
    obtain ⟨p₂, q₂, hfl, hfl', hname, hlen⟩ :=
      flattenB_add y.name sn r ⟨bn, []⟩
    have hnil : p₂ = [] ∧ q₂ = [] := by
      have : ([] : List FlatRecord) = p₂ ++ q₂ := by
        simpa [flattenB] using hfl
      exact List.append_eq_nil.mp this.symm
    have hupd : add_to_year bn sn r y =
        { y with branches := y.branches ++ [add_to_branch sn r ⟨bn, []⟩] } := by
      rw [add_to_year, hy₁]
      show { y with branches := updateFirst _ _ (y.branches ++ (⟨bn, []⟩ : Branch) :: []) }
        = _
      rw [updateFirst_append_first _ _ y.branches ⟨bn, []⟩ [] hall (by simp)]
    refine ⟨flattenY y, [], by simp, ?_, by rw [hupd], ?_, ?_⟩
    · rw [hupd]
      show (y.branches ++ add_to_branch sn r ⟨bn, []⟩ :: []).flatMap
        (flattenB y.name) = _
      rw [List.flatMap_append]
      rw [show flattenY y = y.branches.flatMap (flattenB y.name) from rfl]
      simp [hfl', hnil.1, hnil.2]
    · rw [hupd]
      simp
    · rw [hupd]
      show ((y.branches ++ add_to_branch sn r ⟨bn, []⟩ :: []).map
        (fun b => b.subjects.length)).sum ≤ _
      simp only [List.map_append, List.map_cons, List.map_nil,
        List.sum_append, List.sum_cons, List.sum_nil]
      have : (add_to_branch sn r ⟨bn, []⟩).subjects.length ≤ 1 := by
        simpa using hlen
      rw [totalSubjectsY]
      omega

/-- Claim C9: `add_resource` inserts exactly one flattened record (the new
resource under its year/branch/subject names) and leaves every existing
record in place and in order; the total resource count rises by one, the
year-name sequence gains at most the new year name at its end, at most one
branch node and one subject node are created, and every year not targeted by
the call is kept untouched. -/
theorem add_resource_frame (m : Manifest) (yn bn sn : String)
    (r : Resource) :
    (∃ pre post, flatten_resources m = pre ++ post ∧
      flatten_resources (add_resource m yn bn sn r) =
        pre ++ mkRec yn bn sn r :: post)
  ∧ (flatten_resources (add_resource m yn bn sn r)).length =
      (flatten_resources m).length + 1
  ∧ List.Sublist (flatten_resources m)
      (flatten_resources (add_resource m yn bn sn r))
  ∧ ((add_resource m yn bn sn r).years.map Year.name =
        m.years.map Year.name ∨
     (add_resource m yn bn sn r).years.map Year.name =
        m.years.map Year.name ++ [yn])
  ∧ totalBranches (add_resource m yn bn sn r) ≤ totalBranches m + 1
  ∧ totalSubjects (add_resource m yn bn sn r) ≤ totalSubjects m + 1
  ∧ ∀ y ∈ m.years, y.name ≠ yn → y ∈ (add_resource m yn bn sn r).years := by
  have hmain : (∃ pre post, flatten_resources m = pre ++ post ∧
      flatten_resources (add_resource m yn bn sn r) =
        pre ++ mkRec yn bn sn r :: post)
    ∧ ((add_resource m yn bn sn r).years.map Year.name =
          m.years.map Year.name ∨
       (add_resource m yn bn sn r).years.map Year.name =
          m.years.map Year.name ++ [yn])
    ∧ totalBranches (add_resource m yn bn sn r) ≤ totalBranches m + 1
    ∧ totalSubjects (add_resource m yn bn sn r) ≤ totalSubjects m + 1
    ∧ ∀ y ∈ m.years, y.name ≠ yn →
        y ∈ (add_resource m yn bn sn r).years := by
    cases hf : m.years.find? (fun y => y.name == yn) with
    | some y₀ =>
      obtain ⟨pre, post, hsplit, hpre⟩ := find?_some_split _ _ _ hf
      have hy₀ : y₀.name = yn := by simpa using List.find?_some hf
      have hm₁ : (find_or_create_year m yn).1 = m := by
        simp [find_or_create_year, hf]
      have hupd : add_resource m yn bn sn r =
          ⟨pre ++ add_to_year bn sn r y₀ :: post⟩ := by
        rw [add_resource, hm₁]
        rw [show m.years = pre ++ y₀ :: post from hsplit]
        rw [updateFirst_append_first _ _ pre y₀ post hpre (by simp [hy₀])]
      obtain ⟨p₂, q₂, hfl, hfl', hname, hblen, hslen⟩ :=
        flattenY_add bn sn r y₀
      refine ⟨⟨pre.flatMap flattenY ++ p₂, q₂ ++ post.flatMap flattenY,
        ?_, ?_⟩, ?_, ?_, ?_, ?_⟩
      · rw [flatten_eq, hsplit]
        simp [hfl]
      · rw [hupd, flatten_eq]
        show (pre ++ add_to_year bn sn r y₀ :: post).flatMap flattenY = _
        rw [List.flatMap_append]
        simp [hfl', hy₀]
      · left
        rw [hupd]
        show (pre ++ add_to_year bn sn r y₀ :: post).map Year.name =
          m.years.map Year.name
        rw [show m.years = pre ++ y₀ :: post from hsplit]
        simp [hname]
      · rw [hupd, totalBranches]
        rw [show totalBranches m = ((pre ++ y₀ :: post).map
          (fun y => y.branches.length)).sum by rw [totalBranches, hsplit]]
        show ((pre ++ add_to_year bn sn r y₀ :: post).map
          (fun y => y.branches.length)).sum ≤ _
        simp only [List.map_append, List.map_cons, List.sum_append,
          List.sum_cons]
        omega
      · rw [hupd, totalSubjects]
        rw [show totalSubjects m = ((pre ++ y₀ :: post).map
          totalSubjectsY).sum by rw [totalSubjects, hsplit]]
        show ((pre ++ add_to_year bn sn r y₀ :: post).map
          totalSubjectsY).sum ≤ _
        simp only [List.map_append, List.map_cons, List.sum_append,
          List.sum_cons]
        omega
      · intro y hy hne
        rw [hupd]
        show y ∈ pre ++ add_to_year bn sn r y₀ :: post
        rw [show m.years = pre ++ y₀ :: post from hsplit] at hy
        rcases List.mem_append.mp hy with h1 | h1
        · exact List.mem_append_left _ h1
        · rcases List.mem_cons.mp h1 with rfl | h2
          · exact absurd hy₀ hne
          · exact List.mem_append_right _ (List.mem_cons_of_mem _ h2)
    | none =>
      have hm₁ : (find_or_create_year m yn).1 =
          ⟨m.years ++ [⟨yn, []⟩]⟩ := by
        simp [find_or_create_year, hf]
      have hall : ∀ z ∈ m.years, (z.name == yn) = false := by
        intro z hz
        simpa using List.find?_eq_none.mp hf z hz
      have hupd : add_resource m yn bn sn r =
          ⟨m.years ++ [add_to_year bn sn r ⟨yn, []⟩]⟩ := by
        rw [add_resource, hm₁]
        show (⟨updateFirst (fun y => y.name == yn) (add_to_year bn sn r) (m.years ++ (⟨yn, []⟩ : Year) :: [])⟩ : Manifest) = _
        rw [updateFirst_append_first _ _ m.years ⟨yn, []⟩ [] hall (by simp)]
      obtain ⟨p₂, q₂, hfl, hfl', hname, hblen, hslen⟩ :=
        flattenY_add bn sn r ⟨yn, []⟩
      have hnil : p₂ = [] ∧ q₂ = [] := by
        have : ([] : List FlatRecord) = p₂ ++ q₂ := by
          simpa [flattenY] using hfl
        exact List.append_eq_nil.mp this.symm
      refine ⟨⟨flatten_resources m, [], by simp, ?_⟩, ?_, ?_, ?_, ?_⟩
      · rw [hupd, flatten_eq]
        show (m.years ++ add_to_year bn sn r ⟨yn, []⟩ :: []).flatMap
          flattenY = _
        rw [List.flatMap_append, flatten_eq]
        simp [hfl', hnil.1, hnil.2]
      · right
        rw [hupd]
        show (m.years ++ add_to_year bn sn r ⟨yn, []⟩ :: []).map Year.name = _
        simp [hname]
      · rw [hupd, totalBranches]
        show ((m.years ++ add_to_year bn sn r ⟨yn, []⟩ :: []).map
          (fun y => y.branches.length)).sum ≤ _
        simp only [List.map_append, List.map_cons, List.map_nil,
          List.sum_append, List.sum_cons, List.sum_nil]
        have : (add_to_year bn sn r ⟨yn, []⟩).branches.length ≤ 1 := by
          simpa using hblen
        rw [totalBranches]
        omega
      · rw [hupd, totalSubjects]
        show ((m.years ++ add_to_year bn sn r ⟨yn, []⟩ :: []).map
          totalSubjectsY).sum ≤ _
        simp only [List.map_append, List.map_cons, List.map_nil,
          List.sum_append, List.sum_cons, List.sum_nil]
        have : totalSubjectsY (add_to_year bn sn r ⟨yn, []⟩) ≤ 1 := by
          have : totalSubjectsY (⟨yn, []⟩ : Year) = 0 := by
            simp [totalSubjectsY]
          omega
        rw [totalSubjects]
        omega
      · intro y hy _
        rw [hupd]
        exact List.mem_append_left _ hy
  obtain ⟨hdec, hnames, hbr, hsub, hmem⟩ := hmain
  obtain ⟨pre, post, h1, h2⟩ := hdec
  refine ⟨⟨pre, post, h1, h2⟩, ?_, ?_, hnames, hbr, hsub, hmem⟩
  · rw [h1, h2]
    simp
    omega
  · rw [h1, h2]
    exact List.Sublist.append_left (List.sublist_cons_self _ _) pre

/-! ### JSON round-trip (claim C8): character-level lemmas -/

lemma skipWs_cons_not {c : Char} (t : List Char) (h : wsChar c = false) :
    skipWs (c :: t) = c :: t := by
  simp [skipWs, h]

lemma skipWs_wsRun (ws : List Char) (t : List Char)
    (h : ∀ c ∈ ws, wsChar c = true) :
    skipWs (ws ++ t) = skipWs t := by
  induction ws with
  | nil => rfl
  | cons c cs ih =>
    have hc : wsChar c = true := h c (by simp)
    simp only [List.cons_append, skipWs, hc, if_pos]
    exact ih (fun x hx => h x (by simp [hx]))

lemma wsChar_nlInd (lvl : Nat) : ∀ c ∈ nlInd lvl, wsChar c = true := by
  intro c hc
  rw [nlInd] at hc
  rcases List.mem_cons.mp hc with rfl | hc'
  · decide
  · rw [List.eq_of_mem_replicate hc']
    decide

lemma skipWs_nlInd (lvl : Nat) (t : List Char) :
    skipWs (nlInd lvl ++ t) = skipWs t :=
  skipWs_wsRun _ _ (wsChar_nlInd lvl)

lemma numChar_not_ws {c : Char} (h : numChar c = true) : wsChar c = false := by
  by_cases hw : wsChar c = true
  · exfalso
    rw [wsChar] at hw
    simp only [Bool.or_eq_true, beq_iff_eq] at hw
    rcases hw with ((rfl | rfl) | rfl) | rfl <;> simp [numChar] at h
  · simpa using hw

lemma hexVal_digitChar : ∀ n, n < 16 → hexVal (Nat.digitChar n) = n := by
  decide

lemma parseStrChars_raw (c : Char) (rest : List Char) (h1 : c ≠ '"')
    (h2 : c ≠ '\\') :
    parseStrChars (c :: rest) =
      match parseStrChars rest with
      | some (cs, r) => some (c :: cs, r)
      | none => none := by
  rw [parseStrChars.eq_def]
  split <;> simp_all

lemma parseStrChars_escape (cs : List Char) (r : List Char) :
    parseStrChars (cs.flatMap escapeChar ++ ('"' :: r)) = some (cs, r) := by
  induction cs with
  | nil => simp [parseStrChars]
  | cons c cs ih =>
    rw [List.flatMap_cons, List.append_assoc]
    rw [escapeChar]
    by_cases h1 : c = '"'
    · subst h1
      simp only [if_pos rfl]
      simp [parseStrChars, escChar?, ih]
    · rw [if_neg h1]
      by_cases h2 : c = '\\'
      · subst h2
        simp only [if_pos rfl]
        simp [parseStrChars, escChar?, ih]
      · rw [if_neg h2]
        by_cases h3 : c = '\n'
        · subst h3
          simp only [if_pos rfl]
          simp [parseStrChars, escChar?, ih]
        · rw [if_neg h3]
          by_cases h4 : c = '\r'
          · subst h4
            simp only [if_pos rfl]
            simp [parseStrChars, escChar?, ih]
          · rw [if_neg h4]
            by_cases h5 : c = '\t'
            · subst h5
              simp only [if_pos rfl]
              simp [parseStrChars, escChar?, ih]
            · rw [if_neg h5]
              by_cases h6 : c = '\x08'
              · subst h6
                simp only [if_pos rfl]
                simp [parseStrChars, escChar?, ih]
              · rw [if_neg h6]
                by_cases h7 : c = '\x0c'
                · subst h7
                  simp only [if_pos rfl]
                  simp [parseStrChars, escChar?, ih]
                · rw [if_neg h7]
                  by_cases h8 : c.toNat < 32
                  · rw [if_pos h8]
                    simp only [List.cons_append]
                    rw [parseStrChars]
                    simp only [List.nil_append]
                    have hdiv : c.toNat / 16 < 16 := by omega
                    have hmod : c.toNat % 16 < 16 := by omega
                    rw [ih]
                    simp only [hexVal_digitChar _ hdiv,
                      hexVal_digitChar _ hmod]
                    have hval : hexVal '0' * 4096 + hexVal '0' * 256 +
                        c.toNat / 16 * 16 + c.toNat % 16 = c.toNat := by
                      have h0 : hexVal '0' = 0 := by decide
                      rw [h0]
                      omega
                    rw [hval, Char.ofNat_toNat]
                  · rw [if_neg h8]
                    simp only [List.cons_append, List.nil_append]
                    rw [parseStrChars_raw c _ h1 h2, ih]

lemma parseStrChars_quote (s : String) (r : List Char) :
    parseStrChars (s.data.flatMap escapeChar ++ ('"' :: r)) =
      some (s.data, r) :=
  parseStrChars_escape s.data r

lemma takeWhile_append_of_all (xs r : List Char)
    (h : ∀ c ∈ xs, numChar c = true) (hr : headNotNum r) :
    (xs ++ r).takeWhile numChar = xs ∧ (xs ++ r).dropWhile numChar = r := by
  induction xs with
  | nil =>
    cases r with
    | nil => simp
    | cons c t =>
      rw [headNotNum] at hr
      simp [List.takeWhile, List.dropWhile, hr]
  | cons x xs ih =>
    have hx : numChar x = true := h x (by simp)
    obtain ⟨ht, hd⟩ := ih (fun c hc => h c (by simp [hc]))
    simp [List.takeWhile_cons, List.dropWhile_cons, hx, ht, hd]

lemma nlInd_length (lvl : Nat) : (nlInd lvl).length = 1 + 2 * lvl := by
  simp [nlInd]
  omega

lemma numChar_ne_of (c d : Char) (hc : numChar c = true)
    (hd : numChar d = false) : c ≠ d := by
  intro h
  rw [h, hd] at hc
  exact absurd hc (by simp)

lemma dump_starts (lvl : Nat) (j : Json) (h : wfJson j = true) :
    ∃ c cs, dumpVal lvl j = c :: cs ∧ wsChar c = false ∧ c ≠ ']' ∧
      c ≠ '\x7d' := by
  cases j with
  | null =>
    exact ⟨'n', ['u', 'l', 'l'], by simp [dumpVal], by decide, by decide,
      by decide⟩
  | bool b =>
    cases b with
    | true =>
      exact ⟨'t', ['r', 'u', 'e'], by simp [dumpVal], by decide, by decide,
        by decide⟩
    | false =>
      exact ⟨'f', ['a', 'l', 's', 'e'], by simp [dumpVal], by decide,
        by decide, by decide⟩
  | num raw =>
    rw [wfJson, Bool.and_eq_true] at h
    obtain ⟨hne, hall⟩ := h
    cases hd : raw.data with
    | nil => rw [hd] at hne; simp at hne
    | cons c cs =>
      have hc : numChar c = true := by
        have := List.all_eq_true.mp hall c
        rw [hd] at this
        exact this (by simp)
      exact ⟨c, cs, by simp [dumpVal, hd], numChar_not_ws hc,
        numChar_ne_of c ']' hc (by decide),
        numChar_ne_of c '\x7d' hc (by decide)⟩
  | str s =>
    refine ⟨'"', s.data.flatMap escapeChar ++ ['"'], ?_, by decide, by decide,
      by decide⟩
    simp [dumpVal, quoteStr]
  | arr xs =>
    cases xs with
    | nil =>
      exact ⟨'[', [']'], by simp [dumpVal], by decide, by decide, by decide⟩
    | cons x xs =>
      refine ⟨'[', nlInd (lvl + 1) ++ dumpVal (lvl + 1) x ++
        dumpElemsTail (lvl + 1) xs ++ nlInd lvl ++ [']'], ?_, by decide,
        by decide, by decide⟩
      simp [dumpVal]
  | obj kvs =>
    cases kvs with
    | nil =>
      exact ⟨'\x7b', ['\x7d'], by simp [dumpVal], by decide, by decide,
        by decide⟩
    | cons kv kvs =>
      refine ⟨'\x7b', nlInd (lvl + 1) ++ dumpField (lvl + 1) kv ++
        dumpFieldsTail (lvl + 1) kvs ++ nlInd lvl ++ ['\x7d'], ?_, by decide,
        by decide, by decide⟩
      simp [dumpVal]

lemma skipWs_dumpVal (lvl : Nat) (j : Json) (rest : List Char)
    (h : wfJson j = true) :
    skipWs (dumpVal lvl j ++ rest) = dumpVal lvl j ++ rest := by
  obtain ⟨c, cs, hd, hws, -, -⟩ := dump_starts lvl j h
  rw [hd, List.cons_append, skipWs_cons_not _ hws]

lemma parseVal_num (fuel : Nat) (c : Char) (t : List Char)
    (hc : numChar c = true) :
    parseVal (fuel + 1) (c :: t) =
      some (.num ⟨c :: t.takeWhile numChar⟩, t.dropWhile numChar) := by
  rw [parseVal]
  rw [skipWs_cons_not _ (numChar_not_ws hc)]
  split <;> (try simp_all) <;> exact absurd hc (by decide)

lemma headNotNum_elems (lvl lvl2 : Nat) (xs : List Json) (t : List Char) :
    headNotNum (dumpElemsTail lvl xs ++ (nlInd lvl2 ++ t)) := by
  cases xs with
  | nil =>
    rw [dumpElemsTail]
    show headNotNum ([] ++ (('\n' :: List.replicate (2 * lvl2) ' ') ++ t))
    rw [List.nil_append, List.cons_append, headNotNum]
    decide
  | cons x xs =>
    rw [dumpElemsTail]
    show headNotNum (((',' :: nlInd lvl) ++ _ ++ _) ++ _)
    simp only [List.cons_append, List.append_assoc]
    rw [headNotNum]
    decide

lemma headNotNum_fields (lvl lvl2 : Nat) (kvs : List (String × Json))
    (t : List Char) :
    headNotNum (dumpFieldsTail lvl kvs ++ (nlInd lvl2 ++ t)) := by
  cases kvs with
  | nil =>
    rw [dumpFieldsTail]
    show headNotNum ([] ++ (('\n' :: List.replicate (2 * lvl2) ' ') ++ t))
    rw [List.nil_append, List.cons_append, headNotNum]
    decide
  | cons kv kvs =>
    rw [dumpFieldsTail]
    show headNotNum (((',' :: nlInd lvl) ++ _ ++ _) ++ _)
    simp only [List.cons_append, List.append_assoc]
    rw [headNotNum]
    decide

lemma skipWs_idem (l : List Char) : skipWs (skipWs l) = skipWs l := by
  induction l with
  | nil => rfl
  | cons c t ih =>
    by_cases h : wsChar c = true
    · rw [skipWs, if_pos h]
      exact ih
    · have h' : wsChar c = false := by simpa using h
      rw [skipWs_cons_not _ h', skipWs_cons_not _ h']

lemma parseVal_skipWs (f : Nat) (input : List Char) :
    parseVal (f + 1) input = parseVal (f + 1) (skipWs input) := by
  rw [parseVal, parseVal, skipWs_idem]

lemma parseElems_skipWs (f : Nat) (input : List Char) :
    parseElems (f + 1) input = parseElems (f + 1) (skipWs input) := by
  rw [parseElems, parseElems, skipWs_idem]

lemma parseFields_skipWs (f : Nat) (input : List Char) :
    parseFields (f + 1) input = parseFields (f + 1) (skipWs input) := by
  rw [parseFields, parseFields, skipWs_idem]

lemma parseVal_lit_null (f : Nat) (t : List Char) :
    parseVal (f + 1) ('n' :: 'u' :: 'l' :: 'l' :: t) = some (.null, t) := rfl

lemma parseVal_lit_true (f : Nat) (t : List Char) :
    parseVal (f + 1) ('t' :: 'r' :: 'u' :: 'e' :: t) =
      some (.bool true, t) := rfl

lemma parseVal_lit_false (f : Nat) (t : List Char) :
    parseVal (f + 1) ('f' :: 'a' :: 'l' :: 's' :: 'e' :: t) =
      some (.bool false, t) := rfl

lemma parseVal_lit_quote (f : Nat) (t : List Char) :
    parseVal (f + 1) ('"' :: t) =
      match parseStrChars t with
      | some (cs, r) => some (.str ⟨cs⟩, r)
      | none => none := rfl

lemma parseVal_lit_lbrack (f : Nat) (t : List Char) :
    parseVal (f + 1) ('[' :: t) =
      (match skipWs t with
       | ']' :: r => some (Json.arr [], r)
       | other =>
         match parseVal f other with
         | some (v, r) =>
           match parseElems f r with
           | some (vs, r2) => some (Json.arr (v :: vs), r2)
           | none => none
         | none => none) := rfl

lemma parseVal_lit_lbrace (f : Nat) (t : List Char) :
    parseVal (f + 1) ('\x7b' :: t) =
      (match skipWs t with
       | '\x7d' :: r => some (Json.obj [], r)
       | '"' :: r =>
         match parseStrChars r with
         | some (kcs, r1) =>
           match skipWs r1 with
           | ':' :: r2 =>
             match parseVal f r2 with
             | some (v, r3) =>
               match parseFields f r3 with
               | some (kvs, r4) => some (Json.obj ((⟨kcs⟩, v) :: kvs), r4)
               | none => none
             | none => none
           | _ => none
         | none => none
       | _ => none) := rfl

lemma parseElems_lit_rbrack (f : Nat) (r : List Char) :
    parseElems (f + 1) (']' :: r) = some ([], r) := rfl

lemma parseElems_lit_comma (f : Nat) (r : List Char) :
    parseElems (f + 1) (',' :: r) =
      (match parseVal f r with
       | some (v, r1) =>
         match parseElems f r1 with
         | some (vs, r2) => some (v :: vs, r2)
         | none => none
       | none => none) := rfl

lemma parseFields_lit_rbrace (f : Nat) (r : List Char) :
    parseFields (f + 1) ('\x7d' :: r) = some ([], r) := rfl

lemma parseFields_lit_comma (f : Nat) (r : List Char) :
    parseFields (f + 1) (',' :: r) =
      (match skipWs r with
       | '"' :: r1 =>
         match parseStrChars r1 with
         | some (kcs, r2) =>
           match skipWs r2 with
           | ':' :: r3 =>
             match parseVal f r3 with
             | some (v, r4) =>
               match parseFields f r4 with
               | some (kvs, r5) => some ((⟨kcs⟩, v) :: kvs, r5)
               | none => none
             | none => none
           | _ => none
         | none => none
       | _ => none) := rfl

lemma arr_arm_cons (f : Nat) (c : Char) (X : List Char) (hc : c ≠ ']')
    (v : Json) (r : List Char) (h1 : parseVal f (c :: X) = some (v, r))
    (vs : List Json) (r2 : List Char)
    (h2 : parseElems f r = some (vs, r2)) :
    (match c :: X with
     | ']' :: r => some (Json.arr [], r)
     | other =>
       match parseVal f other with
       | some (v, r) =>
         match parseElems f r with
         | some (vs, r2) => some (Json.arr (v :: vs), r2)
         | none => none
       | none => none) = some (Json.arr (v :: vs), r2) := by
  split
  · rename_i r' heq
    exact absurd (by simpa using congrArg List.head? heq) hc
  · rename_i other heq
    rw [h1]
    show (match parseElems f r with
      | some (vs, r2) => some (Json.arr (v :: vs), r2)
      | none => none) = some (Json.arr (v :: vs), r2)
    rw [h2]

lemma obj_arm_cons (f : Nat) (X : List Char)
    (kcs : List Char) (r1 : List Char)
    (hstr : parseStrChars X = some (kcs, r1))
    (r2 : List Char) (hcolon : skipWs r1 = ':' :: r2)
    (v : Json) (r3 : List Char) (hv : parseVal f r2 = some (v, r3))
    (kvs : List (String × Json)) (r4 : List Char)
    (hfs : parseFields f r3 = some (kvs, r4)) :
    (match ('"' :: X : List Char) with
     | '\x7d' :: r => some (Json.obj [], r)
     | '"' :: r =>
       match parseStrChars r with
       | some (kcs, r1) =>
         match skipWs r1 with
         | ':' :: r2 =>
           match parseVal f r2 with
           | some (v, r3) =>
             match parseFields f r3 with
             | some (kvs, r4) => some (Json.obj ((⟨kcs⟩, v) :: kvs), r4)
             | none => none
           | none => none
         | _ => none
       | none => none
     | _ => none) = some (Json.obj ((⟨kcs⟩, v) :: kvs), r4) := by
  show (match parseStrChars X with
    | some (kcs, r1) =>
      match skipWs r1 with
      | ':' :: r2 =>
        match parseVal f r2 with
        | some (v, r3) =>
          match parseFields f r3 with
          | some (kvs, r4) => some (Json.obj ((⟨kcs⟩, v) :: kvs), r4)
          | none => none
        | none => none
      | _ => none
    | none => none) = some (Json.obj ((⟨kcs⟩, v) :: kvs), r4)
  rw [hstr]
  show (match skipWs r1 with
    | ':' :: r2 =>
      match parseVal f r2 with
      | some (v, r3) =>
        match parseFields f r3 with
        | some (kvs, r4) => some (Json.obj ((⟨kcs⟩, v) :: kvs), r4)
        | none => none
      | none => none
    | _ => none) = some (Json.obj ((⟨kcs⟩, v) :: kvs), r4)
  rw [hcolon]
  show (match parseVal f r2 with
    | some (v, r3) =>
      match parseFields f r3 with
      | some (kvs, r4) => some (Json.obj ((⟨kcs⟩, v) :: kvs), r4)
      | none => none
    | none => none) = some (Json.obj ((⟨kcs⟩, v) :: kvs), r4)
  rw [hv]
  show (match parseFields f r3 with
    | some (kvs, r4) => some (Json.obj ((⟨kcs⟩, v) :: kvs), r4)
    | none => none) = some (Json.obj ((⟨kcs⟩, v) :: kvs), r4)
  rw [hfs]

lemma fields_arm_comma (f : Nat) (r : List Char)
    (r1 : List Char) (hq : skipWs r = '"' :: r1)
    (kcs : List Char) (r2 : List Char)
    (hstr : parseStrChars r1 = some (kcs, r2))
    (r3 : List Char) (hcolon : skipWs r2 = ':' :: r3)
    (v : Json) (r4 : List Char) (hv : parseVal f r3 = some (v, r4))
    (kvs : List (String × Json)) (r5 : List Char)
    (hfs : parseFields f r4 = some (kvs, r5)) :
    (match skipWs r with
     | '"' :: r1 =>
       match parseStrChars r1 with
       | some (kcs, r2) =>
         match skipWs r2 with
         | ':' :: r3 =>
           match parseVal f r3 with
           | some (v, r4) =>
             match parseFields f r4 with
             | some (kvs, r5) => some ((⟨kcs⟩, v) :: kvs, r5)
             | none => none
           | none => none
         | _ => none
       | none => none
     | _ => none) = some ((⟨kcs⟩, v) :: kvs, r5) := by
  rw [hq]
  show (match parseStrChars r1 with
    | some (kcs, r2) =>
      match skipWs r2 with
      | ':' :: r3 =>
        match parseVal f r3 with
        | some (v, r4) =>
          match parseFields f r4 with
          | some (kvs, r5) => some ((⟨kcs⟩, v) :: kvs, r5)
          | none => none
        | none => none
      | _ => none
    | none => none) = some ((⟨kcs⟩, v) :: kvs, r5)
  rw [hstr]
  show (match skipWs r2 with
    | ':' :: r3 =>
      match parseVal f r3 with
      | some (v, r4) =>
        match parseFields f r4 with
        | some (kvs, r5) => some ((⟨kcs⟩, v) :: kvs, r5)
        | none => none
      | none => none
    | _ => none) = some ((⟨kcs⟩, v) :: kvs, r5)
  rw [hcolon]
  show (match parseVal f r3 with
    | some (v, r4) =>
      match parseFields f r4 with
      | some (kvs, r5) => some ((⟨kcs⟩, v) :: kvs, r5)
      | none => none
    | none => none) = some ((⟨kcs⟩, v) :: kvs, r5)
  rw [hv]
  show (match parseFields f r4 with
    | some (kvs, r5) => some ((⟨kcs⟩, v) :: kvs, r5)
    | none => none) = some ((⟨kcs⟩, v) :: kvs, r5)
  rw [hfs]

lemma parse_dump : ∀ fuel : Nat,
    (∀ j lvl ws rest, wfJson j = true → (∀ c ∈ ws, wsChar c = true) →
      headNotNum rest → (dumpVal lvl j).length < fuel →
      parseVal fuel (ws ++ (dumpVal lvl j ++ rest)) = some (j, rest))
  ∧ (∀ xs lvl lvl2 rest, wfList xs = true →
      (dumpElemsTail lvl xs).length < fuel →
      parseElems fuel
        (dumpElemsTail lvl xs ++ (nlInd lvl2 ++ (']' :: rest))) =
        some (xs, rest))
  ∧ (∀ kvs lvl lvl2 rest, wfFields kvs = true →
      (dumpFieldsTail lvl kvs).length < fuel →
      parseFields fuel
        (dumpFieldsTail lvl kvs ++ (nlInd lvl2 ++ ('\x7d' :: rest))) =
        some (kvs, rest)) := by
  intro fuel
  induction fuel using Nat.strong_induction_on with
  | _ fuel ih =>
    cases fuel with
    | zero =>
      exact ⟨fun j lvl ws rest _ _ _ h => absurd h (by omega),
        fun xs lvl lvl2 rest _ h => absurd h (by omega),
        fun kvs lvl lvl2 rest _ h => absurd h (by omega)⟩
    | succ f =>
      obtain ⟨ihA, ihB, ihC⟩ := ih f (by omega)
      refine ⟨?_, ?_, ?_⟩
      · intro j lvl ws rest hwf hws hrest hlen
        cases j with
        | null =>
          simp only [dumpVal, List.cons_append, List.nil_append]
          rw [parseVal_skipWs, skipWs_wsRun _ _ hws,
            skipWs_cons_not _ (by decide), parseVal_lit_null]
        | bool b =>
          cases b with
          | true =>
            simp only [dumpVal, List.cons_append, List.nil_append]
            rw [parseVal_skipWs, skipWs_wsRun _ _ hws,
              skipWs_cons_not _ (by decide), parseVal_lit_true]
          | false =>
            simp only [dumpVal, List.cons_append, List.nil_append]
            rw [parseVal_skipWs, skipWs_wsRun _ _ hws,
              skipWs_cons_not _ (by decide), parseVal_lit_false]
        | num raw =>
          rw [wfJson, Bool.and_eq_true] at hwf
          obtain ⟨hne, hall⟩ := hwf
          cases hd : raw.data with
          | nil => rw [hd] at hne; simp at hne
          | cons c cs =>
            have hc : numChar c = true :=
              List.all_eq_true.mp hall c (by rw [hd]; simp)
            have hcs : ∀ x ∈ cs, numChar x = true := fun x hx =>
              List.all_eq_true.mp hall x (by rw [hd]; simp [hx])
            simp only [dumpVal, hd, List.cons_append]
            rw [parseVal_skipWs, skipWs_wsRun _ _ hws,
              skipWs_cons_not _ (numChar_not_ws hc),
              parseVal_num f c (cs ++ rest) hc,
              (takeWhile_append_of_all cs rest hcs hrest).1,
              (takeWhile_append_of_all cs rest hcs hrest).2, ← hd]
        | str s =>
          simp only [dumpVal, quoteStr, List.cons_append, List.nil_append,
            List.append_assoc, List.singleton_append]
          rw [parseVal_skipWs, skipWs_wsRun _ _ hws,
            skipWs_cons_not _ (by decide), parseVal_lit_quote,
            parseStrChars_quote s rest]
        | arr xs =>
          cases xs with
          | nil =>
            simp only [dumpVal, List.cons_append, List.nil_append]
            rw [parseVal_skipWs, skipWs_wsRun _ _ hws,
              skipWs_cons_not _ (by decide), parseVal_lit_lbrack,
              skipWs_cons_not _ (by decide)]
            rfl
          | cons x xs =>
            rw [wfJson, wfList, Bool.and_eq_true] at hwf
            obtain ⟨hwx, hwxs⟩ := hwf
            have hlens : (dumpVal (lvl + 1) x).length < f ∧
                (dumpElemsTail (lvl + 1) xs).length < f := by
              simp only [dumpVal, List.length_append, List.length_cons,
                List.length_nil, nlInd_length] at hlen
              omega
            simp only [dumpVal, List.cons_append, List.nil_append,
              List.append_assoc, List.singleton_append]
            rw [parseVal_skipWs, skipWs_wsRun _ _ hws,
              skipWs_cons_not _ (by decide), parseVal_lit_lbrack,
              skipWs_nlInd, skipWs_dumpVal (lvl + 1) x _ hwx]
            obtain ⟨c, cs, hdx, hcws, hcne, hcne2⟩ :=
              dump_starts (lvl + 1) x hwx
            have h1 : parseVal f (dumpVal (lvl + 1) x ++
                (dumpElemsTail (lvl + 1) xs ++ (nlInd lvl ++ (']' :: rest))))
                = some (x, dumpElemsTail (lvl + 1) xs ++
                    (nlInd lvl ++ (']' :: rest))) := by
              have := ihA x (lvl + 1) []
                (dumpElemsTail (lvl + 1) xs ++ (nlInd lvl ++ (']' :: rest)))
                hwx (by simp) (headNotNum_elems _ _ _ _) hlens.1
              simpa using this
            rw [hdx, List.cons_append] at h1 ⊢
            have h2 : parseElems f (dumpElemsTail (lvl + 1) xs ++
                (nlInd lvl ++ (']' :: rest))) = some (xs, rest) :=
              ihB xs (lvl + 1) lvl rest hwxs hlens.2
            exact arr_arm_cons f c _ hcne x _ h1 xs rest h2
        | obj kvs =>
          cases kvs with
          | nil =>
            simp only [dumpVal, List.cons_append, List.nil_append]
            rw [parseVal_skipWs, skipWs_wsRun _ _ hws,
              skipWs_cons_not _ (by decide), parseVal_lit_lbrace,
              skipWs_cons_not _ (by decide)]
            rfl
          | cons kv kvs =>
            obtain ⟨k, v⟩ := kv
            rw [wfJson, wfFields, Bool.and_eq_true] at hwf
            obtain ⟨hwv, hwkvs⟩ := hwf
            have hlens : (dumpVal (lvl + 1) v).length < f ∧
                (dumpFieldsTail (lvl + 1) kvs).length < f := by
              simp only [dumpVal, dumpField, quoteStr, List.length_append,
                List.length_cons, List.length_nil, nlInd_length] at hlen
              omega
            simp only [dumpVal, dumpField, quoteStr, List.cons_append,
              List.nil_append, List.append_assoc, List.singleton_append]
            rw [parseVal_skipWs, skipWs_wsRun _ _ hws,
              skipWs_cons_not _ (by decide), parseVal_lit_lbrace,
              skipWs_nlInd, skipWs_cons_not _ (by decide)]
            have hstr := parseStrChars_quote k (':' :: (' ' ::
              (dumpVal (lvl + 1) v ++ (dumpFieldsTail (lvl + 1) kvs ++
                (nlInd lvl ++ ('\x7d' :: rest))))))
            have hcolon : skipWs (':' :: (' ' ::
                (dumpVal (lvl + 1) v ++ (dumpFieldsTail (lvl + 1) kvs ++
                  (nlInd lvl ++ ('\x7d' :: rest)))))) =
                ':' :: (' ' :: (dumpVal (lvl + 1) v ++
                  (dumpFieldsTail (lvl + 1) kvs ++
                    (nlInd lvl ++ ('\x7d' :: rest))))) :=
              skipWs_cons_not _ (by decide)
            have hv : parseVal f (' ' :: (dumpVal (lvl + 1) v ++
                (dumpFieldsTail (lvl + 1) kvs ++
                  (nlInd lvl ++ ('\x7d' :: rest))))) =
                some (v, dumpFieldsTail (lvl + 1) kvs ++
                  (nlInd lvl ++ ('\x7d' :: rest))) := by
              have := ihA v (lvl + 1) [' ']
                (dumpFieldsTail (lvl + 1) kvs ++
                  (nlInd lvl ++ ('\x7d' :: rest)))
                hwv (by decide) (headNotNum_fields _ _ _ _) hlens.1
              simpa using this
            have hfs : parseFields f (dumpFieldsTail (lvl + 1) kvs ++
                (nlInd lvl ++ ('\x7d' :: rest))) = some (kvs, rest) :=
              ihC kvs (lvl + 1) lvl rest hwkvs hlens.2
            exact obj_arm_cons f _ k.data _ hstr _ hcolon v _ hv kvs rest hfs
      · intro xs lvl lvl2 rest hwf hlen
        cases xs with
        | nil =>
          rw [dumpElemsTail, List.nil_append, parseElems_skipWs, skipWs_nlInd,
            skipWs_cons_not _ (by decide), parseElems_lit_rbrack]
        | cons x xs =>
          rw [wfList, Bool.and_eq_true] at hwf
          obtain ⟨hwx, hwxs⟩ := hwf
          have hlens : (dumpVal lvl x).length < f ∧
              (dumpElemsTail lvl xs).length < f := by
            rw [dumpElemsTail] at hlen
            simp only [List.length_append, List.length_cons,
              nlInd_length] at hlen
            omega
          rw [dumpElemsTail]
          simp only [List.cons_append, List.append_assoc]
          rw [parseElems_skipWs, skipWs_cons_not _ (by decide),
            parseElems_lit_comma]
          have h1 : parseVal f (nlInd lvl ++ (dumpVal lvl x ++
              (dumpElemsTail lvl xs ++ (nlInd lvl2 ++ (']' :: rest))))) =
              some (x, dumpElemsTail lvl xs ++
                (nlInd lvl2 ++ (']' :: rest))) :=
            ihA x lvl (nlInd lvl) _ hwx (wsChar_nlInd lvl)
              (headNotNum_elems _ _ _ _) hlens.1
          rw [h1]
          show (match parseElems f (dumpElemsTail lvl xs ++
              (nlInd lvl2 ++ (']' :: rest))) with
            | some (vs, r2) => some (x :: vs, r2)
            | none => none) = some (x :: xs, rest)
          rw [ihB xs lvl lvl2 rest hwxs hlens.2]
      · intro kvs lvl lvl2 rest hwf hlen
        cases kvs with
        | nil =>
          rw [dumpFieldsTail, List.nil_append, parseFields_skipWs,
            skipWs_nlInd, skipWs_cons_not _ (by decide),
            parseFields_lit_rbrace]
        | cons kv kvs =>
          obtain ⟨k, v⟩ := kv
          rw [wfFields, Bool.and_eq_true] at hwf
          obtain ⟨hwv, hwkvs⟩ := hwf
          have hlens : (dumpVal lvl v).length < f ∧
              (dumpFieldsTail lvl kvs).length < f := by
            rw [dumpFieldsTail, dumpField] at hlen
            simp only [quoteStr, List.length_append, List.length_cons,
              nlInd_length] at hlen
            omega
          rw [dumpFieldsTail, dumpField]
          simp only [quoteStr, List.cons_append, List.nil_append,
            List.append_assoc, List.singleton_append]
          rw [parseFields_skipWs, skipWs_cons_not _ (by decide),
            parseFields_lit_comma]
          have hq : skipWs (nlInd lvl ++ ('"' ::
              (k.data.flatMap escapeChar ++ ('"' :: (':' :: (' ' ::
                (dumpVal lvl v ++ (dumpFieldsTail lvl kvs ++
                  (nlInd lvl2 ++ ('\x7d' :: rest)))))))))) =
              '"' :: (k.data.flatMap escapeChar ++ ('"' :: (':' :: (' ' ::
                (dumpVal lvl v ++ (dumpFieldsTail lvl kvs ++
                  (nlInd lvl2 ++ ('\x7d' :: rest)))))))) := by
            rw [skipWs_nlInd]
            exact skipWs_cons_not _ (by decide)
          have hstr := parseStrChars_quote k (':' :: (' ' ::
            (dumpVal lvl v ++ (dumpFieldsTail lvl kvs ++
              (nlInd lvl2 ++ ('\x7d' :: rest))))))
          have hcolon : skipWs (':' :: (' ' :: (dumpVal lvl v ++
              (dumpFieldsTail lvl kvs ++
                (nlInd lvl2 ++ ('\x7d' :: rest)))))) =
              ':' :: (' ' :: (dumpVal lvl v ++ (dumpFieldsTail lvl kvs ++
                (nlInd lvl2 ++ ('\x7d' :: rest))))) :=
            skipWs_cons_not _ (by decide)
          have hv : parseVal f (' ' :: (dumpVal lvl v ++
              (dumpFieldsTail lvl kvs ++
                (nlInd lvl2 ++ ('\x7d' :: rest))))) =
              some (v, dumpFieldsTail lvl kvs ++
                (nlInd lvl2 ++ ('\x7d' :: rest))) := by
            have := ihA v lvl [' ']
              (dumpFieldsTail lvl kvs ++ (nlInd lvl2 ++ ('\x7d' :: rest)))
              hwv (by decide) (headNotNum_fields _ _ _ _) hlens.1
            simpa using this
          have hfs : parseFields f (dumpFieldsTail lvl kvs ++
              (nlInd lvl2 ++ ('\x7d' :: rest))) = some (kvs, rest) :=
            ihC kvs lvl lvl2 rest hwkvs hlens.2
          exact fields_arm_comma f _ _ hq k.data _ hstr _ hcolon v _ hv
            kvs rest hfs

lemma wf_list_map {α : Type} (g : α → Json) (h : ∀ a, wfJson (g a) = true)
    (l : List α) : wfList (l.map g) = true := by
  induction l with
  | nil => rfl
  | cons a l ih => simp [wfList, h a, ih]

lemma wf_resource (r : Resource) : wfJson (resource_to_json r) = true := by
  rcases hu : r.url with - | u <;> rcases hp : r.path with - | p <;>
    simp [resource_to_json, hu, hp, wfJson, wfFields]

lemma wf_subject (s : Subject) : wfJson (subject_to_json s) = true := by
  simp [subject_to_json, wfJson, wfFields,
    wf_list_map resource_to_json wf_resource]

lemma wf_branch (b : Branch) : wfJson (branch_to_json b) = true := by
  simp [branch_to_json, wfJson, wfFields,
    wf_list_map subject_to_json wf_subject]

lemma wf_year (y : Year) : wfJson (year_to_json y) = true := by
  simp [year_to_json, wfJson, wfFields,
    wf_list_map branch_to_json wf_branch]

lemma wf_manifest (m : Manifest) : wfJson (manifest_to_json m) = true := by
  simp [manifest_to_json, wfJson, wfFields,
    wf_list_map year_to_json wf_year]

lemma loads_dumps (j : Json) (hj : wfJson j = true) :
    loads (dumps j) = some j := by
  have hparse : parseVal ((dumpVal 0 j).length + 1) (dumpVal 0 j) =
      some (j, []) := by
    have := (parse_dump ((dumpVal 0 j).length + 1)).1
      j 0 [] [] hj (by simp) trivial (by omega)
    simpa using this
  rw [loads]
  show (match parseVal ((dumpVal 0 j).length + 1) (dumpVal 0 j) with
    | some (v, rest) => if skipWs rest = [] then some v else none
    | none => none) = some j
  rw [hparse]
  show (if skipWs ([] : List Char) = [] then some j else none) = some j
  rfl

/-- Claim C8: parsing back the canonical serialization `save_manifest`
writes (`json.dump` with indent 2, non-ASCII preserved) returns the
document's value, and re-serializing leaves the bytes unchanged; this holds
for every well-formed JSON document, in particular for every schema
manifest document. So `save_manifest(load_manifest())` is byte-for-byte the
identity on canonically serialized documents. -/
theorem save_load_roundtrip (j : Json) (m : Manifest)
    (hj : wfJson j = true) :
    loads (dumps j) = some j
  ∧ (loads (dumps j)).map dumps = some (dumps j)
  ∧ loads (dumps (manifest_to_json m)) = some (manifest_to_json m)
  ∧ (loads (dumps (manifest_to_json m))).map dumps =
      some (dumps (manifest_to_json m)) :=
  ⟨loads_dumps j hj, by rw [loads_dumps j hj]; rfl,
   loads_dumps _ (wf_manifest m), by rw [loads_dumps _ (wf_manifest m)]; rfl⟩

/-- Witness for claim C8: the concrete document with a `meta` object parses
back to itself after serialization. -/
theorem save_load_roundtrip_witness :
    loads (dumps jMetaEx) = some jMetaEx :=
  (save_load_roundtrip jMetaEx ⟨[]⟩
    (by simp [jMetaEx, wfJson, wfFields, wfList])).1

end App
